import Mathlib

/-!
Verification development for the shape-transition graph of `src/objects/transitions.cc`
(TransitionsAccessor / TransitionArray / prototype-transition cache).

The data model and the operations are shallowly embedded from the source file.
Helpers that live in headers outside the supplied sources (`transitions.h`,
`transitions-inl.h`, `map.cc`) are modelled from the specification and carry a
doc comment saying so.  Machine integers are modelled as `Nat`; weak references
are `Option` values where `none` is a cleared reference; garbage-collection
effects at allocation points are supplied by an explicit oracle.
-/

namespace V8

/-- The closed set of special transition symbols recognised by
`TransitionsAccessor::IsSpecialTransition` (transitions.cc lines 250-256). -/
inductive SpecialSym
  | nonextensible
  | sealed
  | frozen
  | elementsTransition
  | strictFunction
deriving DecidableEq

/-- Modelled from the spec: a fixed total order over the small closed set of
special symbols, applied consistently to sorting and searching (section 4.1). -/
def specialIndex : SpecialSym → Nat
  | .nonextensible => 0
  | .sealed => 1
  | .frozen => 2
  | .elementsTransition => 3
  | .strictFunction => 4

/-- A property name: either a regular unique name (identified with its hash) or
one of the special transition symbols. -/
inductive Name
  | regular (hash : Nat)
  | special (sym : SpecialSym)
deriving DecidableEq

/-- Modelled from the spec: special (symbol-keyed) transitions occupy their own
comparison band; regular names compare by identity/hash (section 4.1).  We place
the special band after all regular names, applied consistently everywhere. -/
def nameBand : Name → Nat
  | .regular _ => 0
  | .special _ => 1

/-- The hash used for name comparison: the hash itself for regular names (which
are identified with their hash in this model), the fixed symbol index for
special symbols. -/
def nameHash : Name → Nat
  | .regular h => h
  | .special s => specialIndex s

/-- Property kind: a data property or an accessor property. -/
inductive PropertyKind
  | kData
  | kAccessor
deriving DecidableEq

/-- Modelled from the spec: the fixed two-way order data before accessor
(section 4.1). -/
def kindNum : PropertyKind → Nat
  | .kData => 0
  | .kAccessor => 1

/-- Property attributes as a numeric bitset. -/
abbrev PropertyAttributes := Nat

/-- Modelled from the spec: the FROZEN integrity level attribute value
(property-details.h is outside src/); only distinctness from SEALED and NONE
matters here. -/
def attrFROZEN : PropertyAttributes := 5

/-- Modelled from the spec: the SEALED integrity level attribute value. -/
def attrSEALED : PropertyAttributes := 4

/-- The NONE attribute value. -/
def attrNONE : PropertyAttributes := 0

/-- A shape (a `Map` in the source): opaque identity plus the fields this core
reads - the terminal `(name, kind, attributes)` descriptor of its last-added
property, and flags.  The back-pointer written by `Insert` is not observed by
any claim and is omitted. -/
structure Map where
  id : Nat
  descKey : Name
  descKind : PropertyKind
  descAttrs : PropertyAttributes
  isDeprecated : Bool := false
  isDictionaryMap : Bool := false
  proto : Nat := 0
deriving DecidableEq

/-- One interleaved key/weak-target pair of a TransitionArray.  The target is a
weak reference: `none` is a cleared slot. -/
structure TransitionEntry where
  key : Name
  target : Option Map
deriving DecidableEq

/-- The kind read from an entry's weak target
(`TransitionsAccessor::GetTargetDetails` reads the target's last descriptor;
transitions-inl.h, modelled from the spec).  A cleared slot never takes part in
a details comparison on the executions considered here; the default mirrors the
placeholder used by `TransitionArray::Sort` for special keys. -/
def targetKind (e : TransitionEntry) : PropertyKind :=
  match e.target with
  | some m => m.descKind
  | none => .kData

/-- The attributes read from an entry's weak target; see `targetKind`. -/
def targetAttrs (e : TransitionEntry) : PropertyAttributes :=
  match e.target with
  | some m => m.descAttrs
  | none => 0

/-- `TransitionsAccessor::IsSpecialTransition` (transitions.cc lines 250-256):
true exactly on the five special symbols, which are the `Name.special`
constructors of this model. -/
def IsSpecialTransition : Name → Bool
  | .regular _ => false
  | .special _ => true

/-- The kind an entry contributes to the sort order, as computed by
`TransitionArray::Sort` (transitions.cc lines 683-694): `kData` for special
keys, the target's kind otherwise. -/
def entryKind (e : TransitionEntry) : PropertyKind :=
  if IsSpecialTransition e.key then .kData else targetKind e

/-- The attributes an entry contributes to the sort order; see `entryKind`. -/
def entryAttrs (e : TransitionEntry) : PropertyAttributes :=
  if IsSpecialTransition e.key then 0 else targetAttrs e

/-- The prototype-transition sub-table: a header live-entry count followed by a
fixed-capacity run of weak slots (`none` is a cleared or undefined slot). -/
structure ProtoCache where
  capacity : Nat
  count : Nat
  slots : List (Option Map)
deriving DecidableEq

/-- A TransitionArray: live entries (length = number_of_transitions), backing
capacity, and the optional prototype sub-table. -/
structure TransitionArray where
  capacity : Nat
  entries : List TransitionEntry
  prototypeTransitions : Option ProtoCache := none
deriving DecidableEq

/-- `TransitionArray::number_of_transitions`. -/
def TransitionArray.numberOfTransitions (a : TransitionArray) : Nat :=
  a.entries.length

/-- The raw `Map::raw_transitions` field: one of the five storage variants.  A
weak reference may be cleared (`.weakRef none`). -/
inductive RawTransitions
  | uninitialized
  | weakRef (target : Option Map)
  | fullArray (arr : TransitionArray)
  | migrationTarget (m : Map)
  | prototypeInfo
deriving DecidableEq

/-- The five encodings of `TransitionsAccessor::Encoding`. -/
inductive Encoding
  | kUninitialized
  | kWeakRef
  | kFullTransitionArray
  | kMigrationTarget
  | kPrototypeInfo
deriving DecidableEq

/-- Modelled from the spec: `TransitionsAccessor::GetEncoding`
(transitions-inl.h is outside src/).  A cleared weak reference reads as
Uninitialized; a strong Map is a cached migration target. -/
def encoding : RawTransitions → Encoding
  | .uninitialized => .kUninitialized
  | .weakRef none => .kUninitialized
  | .weakRef (some _) => .kWeakRef
  | .fullArray _ => .kFullTransitionArray
  | .migrationTarget _ => .kMigrationTarget
  | .prototypeInfo => .kPrototypeInfo

/-- Modelled from the spec: the hard cap on transition count
(`TransitionArray::kMaxNumberOfTransitions`, transitions.h is outside src/). -/
def kMaxNumberOfTransitions : Nat := 1024 + 512

/-- Modelled from the spec: the hard maximum of the prototype-transition cache
(`TransitionArray::kMaxCachedPrototypeTransitions`, transitions.h is outside
src/). -/
def kMaxCachedPrototypeTransitions : Nat := 256

/-- Three-way comparison of two naturals as an `Int` sign. -/
def cmpNat (a b : Nat) : Int :=
  if a < b then -1 else if b < a then 1 else 0

/-- Lexicographic combination of two three-way comparison results. -/
def lex2 (a b : Int) : Int :=
  if a = 0 then b else a

/-- Modelled from the spec: `TransitionArray::CompareNames`
(transitions-inl.h is outside src/): special symbols in their own band,
otherwise by name identity/hash (section 4.1). -/
def CompareNames (k1 k2 : Name) : Int :=
  lex2 (cmpNat (nameBand k1) (nameBand k2)) (cmpNat (nameHash k1) (nameHash k2))

/-- Modelled from the spec: `TransitionArray::CompareDetails`
(transitions-inl.h is outside src/): kind (data before accessor), then the
attribute bitset numerically (section 4.1). -/
def CompareDetails (kind1 : PropertyKind) (attrs1 : PropertyAttributes)
    (kind2 : PropertyKind) (attrs2 : PropertyAttributes) : Int :=
  lex2 (cmpNat (kindNum kind1) (kindNum kind2)) (cmpNat attrs1 attrs2)

/-- Modelled from the spec: `TransitionArray::CompareKeys`
(transitions-inl.h is outside src/): name first, then details (section 4.1). -/
def CompareKeys (k1 : Name) (kind1 : PropertyKind) (attrs1 : PropertyAttributes)
    (k2 : Name) (kind2 : PropertyKind) (attrs2 : PropertyAttributes) : Int :=
  lex2 (CompareNames k1 k2) (CompareDetails kind1 attrs1 kind2 attrs2)

/-- Strict lexicographic order on the four-component sort tuple
(band, hash, kind, attributes). -/
def tupLt (b1 h1 k1 a1 b2 h2 k2 a2 : Nat) : Prop :=
  b1 < b2 ∨ (b1 = b2 ∧ (h1 < h2 ∨ (h1 = h2 ∧ (k1 < k2 ∨ (k1 = k2 ∧ a1 < a2)))))

/-- Band component of an entry's sort tuple. -/
def eB (e : TransitionEntry) : Nat := nameBand e.key

/-- Hash component of an entry's sort tuple. -/
def eH (e : TransitionEntry) : Nat := nameHash e.key

/-- Kind component of an entry's sort tuple. -/
def eK (e : TransitionEntry) : Nat := kindNum (entryKind e)

/-- Attributes component of an entry's sort tuple. -/
def eA (e : TransitionEntry) : Nat := entryAttrs e

/-- The comparison `TransitionArray::Sort` and `IsSortedNoDuplicates` apply to
two entries (transitions.cc lines 709-710). -/
def cmpE (e1 e2 : TransitionEntry) : Int :=
  CompareKeys e1.key (entryKind e1) (entryAttrs e1) e2.key (entryKind e2) (entryAttrs e2)

/-- Strict entry order: the sorted-no-duplicates relation between consecutive
entries of a full TransitionArray. -/
def entryLt (e1 e2 : TransitionEntry) : Prop := cmpE e1 e2 < 0

/-- Non-strict entry order (sorted, duplicates allowed). -/
def entryLe (e1 e2 : TransitionEntry) : Prop := cmpE e1 e2 ≤ 0

/-- Equality of the four-component sort tuples of two entries: the same
`(name, kind, attributes)` transition key. -/
def tupEqE (e1 e2 : TransitionEntry) : Prop :=
  eB e1 = eB e2 ∧ eH e1 = eH e2 ∧ eK e1 = eK e2 ∧ eA e1 = eA e2

instance : DecidableRel entryLt := fun e1 e2 => by
  unfold entryLt; infer_instance

instance : DecidableRel entryLe := fun e1 e2 => by
  unfold entryLe; infer_instance

instance (e1 e2 : TransitionEntry) : Decidable (tupEqE e1 e2) := by
  unfold tupEqE; infer_instance

/-- Modelled from the spec: `TransitionArray::SearchName`
(transitions-inl.h is outside src/) locates the first entry with a matching
name in the sorted order, else the insertion point (section 4.2).  Returns
(found index, insertion index). -/
def searchNameList (name : Name) : List TransitionEntry → Option Nat × Nat
  | [] => (none, 0)
  | e :: rest =>
    if CompareNames e.key name < 0 then
      let r := searchNameList name rest
      (r.1.map (· + 1), r.2 + 1)
    else if e.key = name then (some 0, 0)
    else (none, 0)

/-- `TransitionArray::SearchDetails` (transitions.cc lines 599-621): scan the
contiguous run of entries sharing `key`, stopping as soon as the comparator
shows the sorted position has been passed.  Returns (found index, insertion
index), both relative to the start of the scanned run. -/
def searchDetailsList (key : Name) (kind : PropertyKind) (attrs : PropertyAttributes) :
    List TransitionEntry → Option Nat × Nat
  | [] => (none, 0)
  | e :: rest =>
    if e.key = key then
      let c := CompareDetails kind attrs (targetKind e) (targetAttrs e)
      if c = 0 then (some 0, 0)
      else if c < 0 then (none, 0)
      else
        let r := searchDetailsList key kind attrs rest
        (r.1.map (· + 1), r.2 + 1)
    else (none, 0)

/-- `TransitionArray::Search` (transitions.cc lines 646-652): `SearchName`
followed by `SearchDetails` on the run starting at the found index. -/
def listSearch (kind : PropertyKind) (name : Name) (attrs : PropertyAttributes)
    (l : List TransitionEntry) : Option Nat × Nat :=
  match searchNameList name l with
  | (none, ins) => (none, ins)
  | (some t, _) =>
    match l[t]? with
    | none => (none, t)
    | some e0 =>
      let r := searchDetailsList e0.key kind attrs (l.drop t)
      (r.1.map (· + t), r.2 + t)

/-- `TransitionArray::SearchDetailsAndGetTarget` (transitions.cc lines
623-644): like the details scan, but returning the target map. -/
def searchDetailsTarget (key : Name) (kind : PropertyKind) (attrs : PropertyAttributes) :
    List TransitionEntry → Option Map
  | [] => none
  | e :: rest =>
    if e.key = key then
      let c := CompareDetails kind attrs (targetKind e) (targetAttrs e)
      if c = 0 then e.target
      else if c < 0 then none
      else searchDetailsTarget key kind attrs rest
    else none

/-- `TransitionArray::SearchAndGetTarget` (transitions.cc lines 654-661). -/
def TransitionArray.SearchAndGetTarget (a : TransitionArray) (kind : PropertyKind)
    (name : Name) (attrs : PropertyAttributes) : Option Map :=
  match searchNameList name a.entries with
  | (none, _) => none
  | (some t, _) =>
    match a.entries[t]? with
    | none => none
    | some e0 => searchDetailsTarget e0.key kind attrs (a.entries.drop t)

/-- `TransitionsAccessor::IsMatchingMap` (transitions.cc lines 311-320): the
target's last descriptor key, kind and attributes all match. -/
def IsMatchingMap (target : Map) (name : Name) (kind : PropertyKind)
    (attributes : PropertyAttributes) : Bool :=
  decide (target.descKey = name ∧ target.descKind = kind ∧ target.descAttrs = attributes)

/-- `TransitionsAccessor::SearchTransition` (transitions.cc lines 220-240),
dispatching on the encoding. -/
def TransitionsAccessor.SearchTransition (st : RawTransitions) (name : Name)
    (kind : PropertyKind) (attributes : PropertyAttributes) : Option Map :=
  match st with
  | .prototypeInfo => none
  | .uninitialized => none
  | .migrationTarget _ => none
  | .weakRef none => none
  | .weakRef (some m) => if IsMatchingMap m name kind attributes then some m else none
  | .fullArray a => a.SearchAndGetTarget kind name attributes

/-- `TransitionsAccessor::SearchSpecial` (transitions.cc lines 242-247):
symbol-keyed lookup restricted to the FullTransitionArray encoding. -/
def TransitionsAccessor.SearchSpecial (st : RawTransitions) (s : SpecialSym) : Option Map :=
  match st with
  | .fullArray a =>
    match (searchNameList (.special s) a.entries).1 with
    | none => none
    | some i =>
      match a.entries[i]? with
      | some e => e.target
      | none => none
  | _ => none

/-- `TransitionsAccessor::NumberOfTransitions` (transitions.cc lines 444-456). -/
def TransitionsAccessor.NumberOfTransitions : RawTransitions → Nat
  | .prototypeInfo => 0
  | .uninitialized => 0
  | .migrationTarget _ => 0
  | .weakRef none => 0
  | .weakRef (some _) => 1
  | .fullArray a => a.numberOfTransitions

/-- `TransitionsAccessor::SetMigrationTarget` (transitions.cc lines 458-466):
a silent no-op unless the encoding is Uninitialized; otherwise the migration
target is stored as a strong pointer. -/
def TransitionsAccessor.SetMigrationTarget (st : RawTransitions)
    (migration_target : Map) : RawTransitions :=
  if encoding st ≠ .kUninitialized then st
  else .migrationTarget migration_target

/-- `TransitionsAccessor::GetMigrationTarget` (transitions.cc lines 468-473). -/
def TransitionsAccessor.GetMigrationTarget (st : RawTransitions) : Option Map :=
  match st with
  | .migrationTarget m => some m
  | _ => none

/-- The `SimpleTransitionFlag` values distinguished by `Insert`. -/
inductive SimpleTransitionFlag
  | SIMPLE_PROPERTY_TRANSITION
  | PROPERTY_TRANSITION
  | SPECIAL_TRANSITION
deriving DecidableEq

/-- Modelled from the spec: `Map::SlackForArraySize` (map.cc is outside src/):
geometric slack for a growing array, bounded so the resulting capacity
`new_nof + slack` never exceeds the hard cap (section 4.1: new capacity is a
bounded growth of the current count, capped at `kMaxNumberOfTransitions`). -/
def SlackForArraySize (old_size size_limit : Nat) : Nat :=
  min (size_limit - (old_size + 1)) (max 1 (old_size / 2))

/-- The garbage-collection oracle: what the collector does during an allocating
call (a safepoint).  `clearSimple` clears the weak simple-transition target;
`shrinkMask` removes (weakly traverses and trims) entries of a full array, a
subsequence being kept. -/
structure GCOracle where
  clearSimple : Bool := false
  shrinkMask : Option (List Bool) := none
deriving DecidableEq

/-- Keep the entries whose mask bit is true (the collector trims dead
transitions, preserving relative order). -/
def maskFilter : List Bool → List TransitionEntry → List TransitionEntry
  | b :: bs, e :: es => if b then e :: maskFilter bs es else maskFilter bs es
  | _, _ => []

/-- Apply the oracle's shrink effect to a full array at a safepoint. -/
def gcShrink (gc : GCOracle) (a : TransitionArray) : TransitionArray :=
  match gc.shrinkMask with
  | none => a
  | some mask => { a with entries := maskFilter mask a.entries }

/-- Overwrite the weak target of the entry at `i`
(`TransitionArray::SetRawTarget`); the key is left unchanged. -/
def setTargetAt (l : List TransitionEntry) (i : Nat) (t : Option Map) :
    List TransitionEntry :=
  match l[i]? with
  | none => l
  | some e => l.set i { e with target := t }

/-- The search `Insert` performs on a full array (transitions.cc lines
142-145): `SearchSpecial` (a name search) for a special transition, otherwise
`Search` with the new target's details (`GetTargetDetails(name, target)`). -/
def insertSearch (a : TransitionArray) (name : Name) (target : Map)
    (flag : SimpleTransitionFlag) : Option Nat × Nat :=
  if flag = .SPECIAL_TRANSITION then searchNameList name a.entries
  else listSearch target.descKind name target.descAttrs a.entries

/-- The flag/name consistency of an Insert call: the special flag is used
exactly for special transition names, mirroring the assertion
`DCHECK_EQ(is_special_transition, IsSpecialTransition(... name))` at
transitions.cc lines 131-132. -/
def FlagMatches (flag : SimpleTransitionFlag) (name : Name) : Prop :=
  (flag = SimpleTransitionFlag.SPECIAL_TRANSITION) ↔ (IsSpecialTransition name = true)

instance (flag : SimpleTransitionFlag) (name : Name) : Decidable (FlagMatches flag name) := by
  unfold FlagMatches
  infer_instance

/-- `TransitionsAccessor::Insert` (transitions.cc lines 37-218).  The result is
`none` exactly when the run dies on a failed check (the `CHECK_LE(new_nof,
kMaxNumberOfTransitions)` cap check at line 155, or one of the
found-where-absence-is-asserted paths at lines 104 and 193, after which the
source behaviour is undefined).  Allocating calls consult the oracle `gc` for
the collector's concurrent effect, after which the state is reloaded as in the
source. -/
def TransitionsAccessor.Insert (st : RawTransitions) (name : Name) (target : Map)
    (flag : SimpleTransitionFlag) (gc : GCOracle) : Option RawTransitions :=
  match st with
  | .prototypeInfo => none
  | .uninitialized =>
    if flag = .SIMPLE_PROPERTY_TRANSITION then some (.weakRef (some target))
    else some (.fullArray { capacity := 1, entries := [{ key := name, target := some target }], prototypeTransitions := none })
  | .migrationTarget _ =>
    if flag = .SIMPLE_PROPERTY_TRANSITION then some (.weakRef (some target))
    else some (.fullArray { capacity := 1, entries := [{ key := name, target := some target }], prototypeTransitions := none })
  | .weakRef none =>
    -- a cleared weak reference has encoding kUninitialized
    if flag = .SIMPLE_PROPERTY_TRANSITION then some (.weakRef (some target))
    else some (.fullArray { capacity := 1, entries := [{ key := name, target := some target }], prototypeTransitions := none })
  | .weakRef (some simple_transition) =>
    -- re-transition onto an equivalent shape: overwrite the weak pointer
    if flag = .SIMPLE_PROPERTY_TRANSITION ∧ simple_transition.descKey = name ∧
        simple_transition.descKind = target.descKind ∧
        simple_transition.descAttrs = target.descAttrs then
      some (.weakRef (some target))
    else
      -- NewTransitionArray(1, 1): a capacity-2 array; the allocation is a
      -- safepoint, after which the state is reloaded
      if gc.clearSimple then
        -- the old simple target was cleared concurrently: restart with only
        -- the new transition
        some (.fullArray { capacity := 2, entries := [{ key := name, target := some target }], prototypeTransitions := none })
      else
        let result1 : TransitionArray :=
          { capacity := 2,
            entries := [{ key := simple_transition.descKey, target := some simple_transition }],
            prototypeTransitions := none }
        match insertSearch result1 name target flag with
        | (some _, _) => none  -- DCHECK_EQ(index, kNotFound) fails (line 104)
        | (none, insertion_index) =>
          if insertion_index = 0 then
            some (.fullArray
              { capacity := 2,
                entries := [{ key := name, target := some target },
                            { key := simple_transition.descKey, target := some simple_transition }],
                prototypeTransitions := none })
          else
            some (.fullArray
              { capacity := 2,
                entries := [{ key := simple_transition.descKey, target := some simple_transition },
                            { key := name, target := some target }],
                prototypeTransitions := none })
  | .fullArray array =>
    let number_of_transitions := array.entries.length
    match insertSearch array name target flag with
    | (some index, _) =>
      -- an existing entry was found: overwrite it under the exclusive lock
      some (.fullArray { array with entries := setTargetAt array.entries index (some target) })
    | (none, insertion_index) =>
      let new_nof := number_of_transitions + 1
      if kMaxNumberOfTransitions < new_nof then
        none  -- CHECK_LE(new_nof, kMaxNumberOfTransitions) fails (line 155)
      else if new_nof ≤ array.capacity then
        -- enough capacity: shift entries above the insertion index up by one
        -- slot and insert, under the exclusive lock
        some (.fullArray
          { array with
            entries := array.entries.take insertion_index ++
              { key := name, target := some target } :: array.entries.drop insertion_index })
      else
        -- a bigger TransitionArray: the allocation is a safepoint during which
        -- the array may have shrunk; reload and recompute if it did
        let newCapacity := new_nof + SlackForArraySize number_of_transitions kMaxNumberOfTransitions
        let array' := gcShrink gc array
        if array'.entries.length = number_of_transitions then
          some (.fullArray
            { capacity := newCapacity,
              entries := array'.entries.take insertion_index ++
                { key := name, target := some target } :: array'.entries.drop insertion_index,
              prototypeTransitions := array'.prototypeTransitions })
        else
          match insertSearch array' name target flag with
          | (some _, _) => none  -- CHECK_EQ(index, kNotFound) fails (line 193)
          | (none, i') =>
            some (.fullArray
              { capacity := newCapacity,
                entries := array'.entries.take i' ++
                  { key := name, target := some target } :: array'.entries.drop i',
                prototypeTransitions := array'.prototypeTransitions })

/-- The default of the runtime flag `FLAG_cache_prototype_transitions`. -/
def FLAG_cache_prototype_transitions : Bool := true

/-- The prototype sub-table of a shape's transition storage, when present
(`TransitionsAccessor::GetPrototypeTransitions`, transitions.cc lines 428-434,
with `none` for the empty weak fixed array). -/
def getProtoCache : RawTransitions → Option ProtoCache
  | .fullArray a => a.prototypeTransitions
  | _ => none

/-- Install a compacted sub-table in place (compaction mutates the installed
array). -/
def setProtoCache (st : RawTransitions) (c : ProtoCache) : RawTransitions :=
  match st with
  | .fullArray a => .fullArray { a with prototypeTransitions := some c }
  | _ => st

/-- The live-entry count of an optional sub-table
(`TransitionArray::NumberOfPrototypeTransitions` returns 0 for the empty
array). -/
def protoCount : Option ProtoCache → Nat
  | none => 0
  | some c => c.count

/-- `cache->length() - kProtoTransitionHeaderSize` as a signed value: the empty
weak fixed array has no header, so its capacity reads as -1. -/
def protoCapacityInt : Option ProtoCache → Int
  | none => -1
  | some c => (c.capacity : Int)

/-- `TransitionArray::CompactPrototypeTransitionArray` (transitions.cc lines
322-353): drop cleared slots from the live run, shift survivors to the front
preserving relative order, fill freed slots with undefined, update the count;
returns whether any slot was freed. -/
def TransitionArray.CompactPrototypeTransitionArray (c : ProtoCache) : ProtoCache × Bool :=
  if c.count = 0 then (c, false)  -- an empty array cannot be compacted
  else
    let survivors := (c.slots.take c.count).filterMap id
    let nn := survivors.length
    (⟨c.capacity, nn,
      survivors.map some ++ List.replicate (c.count - nn) none ++ c.slots.drop c.count⟩,
     decide (nn < c.count))

/-- `TransitionArray::GrowPrototypeTransitionArray` (transitions.cc lines
355-370): grow to `min(kMaxCachedPrototypeTransitions, new_capacity)`; when
there was no sub-table before, the count is initialized to 0 explicitly. -/
def TransitionArray.GrowPrototypeTransitionArray (c : Option ProtoCache)
    (new_capacity : Nat) : ProtoCache :=
  let ncap := min kMaxCachedPrototypeTransitions new_capacity
  match c with
  | none => ⟨ncap, 0, List.replicate ncap none⟩
  | some c => ⟨ncap, c.count, c.slots ++ List.replicate (ncap - c.capacity) none⟩

/-- `TransitionsAccessor::EnsureHasFullTransitionArray` (transitions.cc lines
494-513).  The prototype-info case (unreachable from the callers modelled
here, since prototype maps are filtered out earlier) allocates a 1-entry array
that stays empty. -/
def TransitionsAccessor.EnsureHasFullTransitionArray (st : RawTransitions) : RawTransitions :=
  match st with
  | .fullArray _ => st
  | .weakRef (some simple_transition) =>
    .fullArray
      { capacity := 1,
        entries := [{ key := simple_transition.descKey, target := some simple_transition }],
        prototypeTransitions := none }
  | .prototypeInfo => .fullArray { capacity := 1, entries := [], prototypeTransitions := none }
  | _ => .fullArray { capacity := 0, entries := [], prototypeTransitions := none }

/-- `TransitionsAccessor::SetPrototypeTransitions` (transitions.cc lines
488-492). -/
def TransitionsAccessor.SetPrototypeTransitions (st : RawTransitions)
    (proto : ProtoCache) : RawTransitions :=
  match TransitionsAccessor.EnsureHasFullTransitionArray st with
  | .fullArray a => .fullArray { a with prototypeTransitions := some proto }
  | st' => st'

/-- The final append of `PutPrototypeTransition` (transitions.cc lines
400-405): write the new weak entry immediately after the live run and bump the
count. -/
def protoAppend (st : RawTransitions) (target_map : Map) : RawTransitions :=
  match st with
  | .fullArray a =>
    match a.prototypeTransitions with
    | some c =>
      let c2 : ProtoCache := ⟨c.capacity, c.count + 1, c.slots.set c.count (some target_map)⟩
      .fullArray { a with prototypeTransitions := some c2 }
    | none => st
  | _ => st

/-- `TransitionsAccessor::PutPrototypeTransition` (transitions.cc lines
372-406).  `isPrototypeMap` and `isDictionaryMap` are the origin map's flags.
The stored entry is the weak target map (lookup later matches on the target's
prototype field), so the prototype argument itself is not stored. -/
def TransitionsAccessor.PutPrototypeTransition (isPrototypeMap isDictionaryMap : Bool)
    (st : RawTransitions) (target_map : Map) : RawTransitions :=
  if isPrototypeMap then st
  else if isDictionaryMap ∨ ¬FLAG_cache_prototype_transitions then st
  else
    let cache := getProtoCache st
    let capacity : Int := protoCapacityInt cache
    let transitions : Nat := protoCount cache + 1
    -- the exclusive lock is acquired here (see PutPrototypeTransitionTrace)
    if capacity < (transitions : Int) then
      match cache with
      | some c =>
        let compacted := TransitionArray.CompactPrototypeTransitionArray c
        if compacted.2 then
          protoAppend (setProtoCache st compacted.1) target_map
        else if capacity = (kMaxCachedPrototypeTransitions : Int) then st
        else
          protoAppend
            (TransitionsAccessor.SetPrototypeTransitions st
              (TransitionArray.GrowPrototypeTransitionArray (some c) (2 * transitions)))
            target_map
      | none =>
        -- compacting the empty array frees nothing; capacity -1 is below the
        -- maximum, so grow
        protoAppend
          (TransitionsAccessor.SetPrototypeTransitions st
            (TransitionArray.GrowPrototypeTransitionArray none (2 * transitions)))
          target_map
    else
      protoAppend st target_map

/-- `TransitionsAccessor::HasIntegrityLevelTransitionTo` (transitions.cc lines
724-740): frozen, then sealed, then non-extensible, returning the first
special transition leading exactly to `to`. -/
def TransitionsAccessor.HasIntegrityLevelTransitionTo (st : RawTransitions)
    (tgt : Map) : Option (SpecialSym × PropertyAttributes) :=
  if TransitionsAccessor.SearchSpecial st .frozen = some tgt then
    some (.frozen, attrFROZEN)
  else if TransitionsAccessor.SearchSpecial st .sealed = some tgt then
    some (.sealed, attrSEALED)
  else if TransitionsAccessor.SearchSpecial st .nonextensible = some tgt then
    some (.nonextensible, attrNONE)
  else none

/-- One step of the inner loop of `TransitionArray::Sort` (transitions.cc
lines 695-719), on the reversed sorted prefix: entries comparing greater than
`e` are shifted right (kept before `e` in the reversed view); `e` is placed at
the first position whose entry does not compare greater. -/
def sortStepRev (e : TransitionEntry) : List TransitionEntry → List TransitionEntry
  | [] => [e]
  | x :: xs => if 0 < cmpE x e then x :: sortStepRev e xs else e :: x :: xs

/-- The outer loop of `TransitionArray::Sort`: fold the entries into a sorted
prefix, kept reversed. -/
def sortAux : List TransitionEntry → List TransitionEntry → List TransitionEntry
  | revDone, [] => revDone.reverse
  | revDone, e :: rest => sortAux (sortStepRev e revDone) rest

/-- `TransitionArray::Sort` (transitions.cc lines 678-722): a stable in-place
insertion sort re-establishing the total order after bulk unsorted
construction. -/
def TransitionArray.Sort (a : TransitionArray) : TransitionArray :=
  { a with entries := sortAux [] a.entries }

/-- The sorted-no-duplicates invariant of a shape's transition storage
(`TransitionArray::IsSortedNoDuplicates`, asserted by every `Insert` path):
when the storage is a full array, consecutive entries strictly increase under
the composite comparator. -/
def SortedInv : RawTransitions → Prop
  | .fullArray a => a.entries.Pairwise entryLt
  | _ => True

/-- The capacity invariant: count is at most the backing capacity, which is at
most the hard cap. -/
def CapInv : RawTransitions → Prop
  | .fullArray a => a.entries.length ≤ a.capacity ∧ a.capacity ≤ kMaxNumberOfTransitions
  | _ => True

/-- The prototype sub-table capacity bound. -/
def ProtoCapBound (st : RawTransitions) : Prop :=
  match getProtoCache st with
  | some c => c.capacity ≤ kMaxCachedPrototypeTransitions
  | none => True

/-- Lock and allocation events, for the reader/writer-lock discipline of
section 5 of the specification. -/
inductive LockEv
  | acquireExclusive
  | releaseExclusive
  | alloc
deriving DecidableEq

/-- Whether some `alloc` event happens while the exclusive lock is held,
starting from `d` held locks. -/
def allocUnderLock : List LockEv → Nat → Bool
  | [], _ => false
  | .acquireExclusive :: r, d => allocUnderLock r (d + 1)
  | .releaseExclusive :: r, d => allocUnderLock r (d - 1)
  | .alloc :: r, d => decide (0 < d) || allocUnderLock r d

/-- The event trace of `TransitionsAccessor::PutPrototypeTransition` in source
order: the exclusive `SharedMutexGuard` is constructed at line 386, before the
compaction/growth block, and is released when the function returns (on every
return path).  `GrowPrototypeTransitionArray` calls
`factory()->CopyWeakFixedArrayAndGrow` and `SetPrototypeTransitions` may call
`factory()->NewTransitionArray` via `EnsureHasFullTransitionArray`; both are
allocating calls (potential collection safepoints). -/
def PutPrototypeTransitionTrace (isPrototypeMap isDictionaryMap : Bool)
    (st : RawTransitions) : List LockEv :=
  if isPrototypeMap then []
  else if isDictionaryMap ∨ ¬FLAG_cache_prototype_transitions then []
  else
    let cache := getProtoCache st
    let capacity : Int := protoCapacityInt cache
    let transitions : Nat := protoCount cache + 1
    [.acquireExclusive] ++
    (if capacity < (transitions : Int) then
      match cache with
      | some c =>
        if (TransitionArray.CompactPrototypeTransitionArray c).2 then []
        else if capacity = (kMaxCachedPrototypeTransitions : Int) then []
        else
          -- GrowPrototypeTransitionArray allocates; SetPrototypeTransitions
          -- allocates when the storage is not yet a full array
          [.alloc] ++
          (match st with
           | .fullArray _ => []
           | _ => [.alloc])
      | none =>
        [.alloc] ++
        (match st with
         | .fullArray _ => []
         | _ => [.alloc])
    else []) ++
    [.releaseExclusive]

/-! Concrete shapes and states used by the scenario claims and by witnesses. -/

/-- A regular property name (the scenario's "x"). -/
def nameX : Name := .regular 10

/-- A regular property name (the scenario's "y"), sorting after `nameX`. -/
def nameY : Name := .regular 20

/-- The scenario target shape reached by adding "x". -/
def S1 : Map := { id := 1, descKey := nameX, descKind := .kData, descAttrs := 0 }

/-- The scenario target shape reached by adding "y". -/
def S2 : Map := { id := 2, descKey := nameY, descKind := .kData, descAttrs := 0 }

/-- The oracle of a quiescent collector: allocation clears and shrinks
nothing. -/
def noGC : GCOracle := {}

/-- The storage after the scenario's first Insert: a simple transition to
`S1`. -/
def stSimpleX : RawTransitions := .weakRef (some S1)

/-- The full two-entry array after the scenario's second Insert. -/
def stFullXY : RawTransitions :=
  .fullArray
    { capacity := 2,
      entries := [{ key := nameX, target := some S1 }, { key := nameY, target := some S2 }],
      prototypeTransitions := none }

/-- Three distinct integrity-level target shapes. -/
def T1 : Map := { id := 11, descKey := nameX, descKind := .kData, descAttrs := 0 }

/-- See `T1`. -/
def T2 : Map := { id := 12, descKey := nameX, descKind := .kData, descAttrs := 0 }

/-- See `T1`. -/
def T3 : Map := { id := 13, descKey := nameX, descKind := .kData, descAttrs := 0 }

/-- Storage holding the three special integrity-level transitions, to `T1`
(frozen), `T2` (sealed) and `T3` (non-extensible), at their sorted
positions. -/
def stInteg : RawTransitions :=
  .fullArray
    { capacity := 3,
      entries := [{ key := .special .nonextensible, target := some T3 },
                  { key := .special .sealed, target := some T2 },
                  { key := .special .frozen, target := some T1 }],
      prototypeTransitions := none }

/-- A prototype sub-table that is full (count = capacity = 1), has no cleared
slot, and is below the hard maximum: `PutPrototypeTransition` on it must grow,
which allocates. -/
def protoCacheFull1 : ProtoCache := ⟨1, 1, [some S1]⟩

/-- Storage whose prototype sub-table is `protoCacheFull1`. -/
def stProtoGrow : RawTransitions :=
  .fullArray ⟨1, [{ key := nameX, target := some S1 }], some protoCacheFull1⟩

/-- A prototype sub-table at the hard maximum with every live slot intact:
compaction frees nothing, so `PutPrototypeTransition` silently drops the
insert. -/
def protoCacheMax : ProtoCache := ⟨256, 256, List.replicate 256 (some S1)⟩

/-- Storage whose prototype sub-table is `protoCacheMax`. -/
def stProtoMax : RawTransitions :=
  .fullArray ⟨1, [{ key := nameX, target := some S1 }], some protoCacheMax⟩

/-- A full prototype sub-table (count = capacity = 2) whose second live slot
was cleared by the collector: the next Put compacts it. -/
def protoCacheHalf : ProtoCache := ⟨2, 2, [some S1, none]⟩

/-- Storage whose prototype sub-table is `protoCacheHalf`. -/
def stProtoHalf : RawTransitions :=
  .fullArray ⟨1, [{ key := nameX, target := some S1 }], some protoCacheHalf⟩

/-- A third regular property name, sorting after `nameY`. -/
def nameZ : Name := .regular 30

/-- The target shape reached by adding the third property. -/
def S3 : Map := { id := 3, descKey := nameZ, descKind := .kData, descAttrs := 0 }

/-! ### Comparator characterisations -/

theorem CompareNames_lt_iff (k1 k2 : Name) :
    CompareNames k1 k2 < 0 ↔
      (nameBand k1 < nameBand k2 ∨ (nameBand k1 = nameBand k2 ∧ nameHash k1 < nameHash k2)) := by
  unfold CompareNames lex2 cmpNat
  split_ifs <;> (try exact False.elim (by assumption)) <;> (try simp_all) <;> omega

theorem CompareNames_eq_iff (k1 k2 : Name) :
    CompareNames k1 k2 = 0 ↔ (nameBand k1 = nameBand k2 ∧ nameHash k1 = nameHash k2) := by
  unfold CompareNames lex2 cmpNat
  split_ifs <;> (try exact False.elim (by assumption)) <;> (try simp_all) <;> omega

theorem CompareNames_pos_iff (k1 k2 : Name) :
    0 < CompareNames k1 k2 ↔
      (nameBand k2 < nameBand k1 ∨ (nameBand k2 = nameBand k1 ∧ nameHash k2 < nameHash k1)) := by
  unfold CompareNames lex2 cmpNat
  split_ifs <;> (try exact False.elim (by assumption)) <;> (try simp_all) <;> omega

theorem specialIndex_inj : ∀ s t : SpecialSym, specialIndex s = specialIndex t → s = t := by
  intro s t
  cases s <;> cases t <;> simp [specialIndex]

/-- Band and hash together determine the name in this model. -/
theorem name_eq_of_band_hash {k1 k2 : Name} (hb : nameBand k1 = nameBand k2)
    (hh : nameHash k1 = nameHash k2) : k1 = k2 := by
  cases k1 <;> cases k2 <;> simp [nameBand] at hb <;> simp [nameHash] at hh
  · simp [hh]
  · simp [specialIndex_inj _ _ hh]

theorem CompareDetails_lt_iff (d1 : PropertyKind) (a1 : Nat) (d2 : PropertyKind) (a2 : Nat) :
    CompareDetails d1 a1 d2 a2 < 0 ↔
      (kindNum d1 < kindNum d2 ∨ (kindNum d1 = kindNum d2 ∧ a1 < a2)) := by
  unfold CompareDetails lex2 cmpNat
  split_ifs <;> (try exact False.elim (by assumption)) <;> (try simp_all) <;> omega

theorem CompareDetails_eq_iff (d1 : PropertyKind) (a1 : Nat) (d2 : PropertyKind) (a2 : Nat) :
    CompareDetails d1 a1 d2 a2 = 0 ↔ (kindNum d1 = kindNum d2 ∧ a1 = a2) := by
  unfold CompareDetails lex2 cmpNat
  split_ifs <;> (try exact False.elim (by assumption)) <;> (try simp_all) <;> omega

theorem CompareDetails_pos_iff (d1 : PropertyKind) (a1 : Nat) (d2 : PropertyKind) (a2 : Nat) :
    0 < CompareDetails d1 a1 d2 a2 ↔
      (kindNum d2 < kindNum d1 ∨ (kindNum d2 = kindNum d1 ∧ a2 < a1)) := by
  unfold CompareDetails lex2 cmpNat
  split_ifs <;> (try exact False.elim (by assumption)) <;> (try simp_all) <;> omega

theorem CompareKeys_lt_iff (k1 : Name) (d1 : PropertyKind) (a1 : Nat)
    (k2 : Name) (d2 : PropertyKind) (a2 : Nat) :
    CompareKeys k1 d1 a1 k2 d2 a2 < 0 ↔
      tupLt (nameBand k1) (nameHash k1) (kindNum d1) a1
        (nameBand k2) (nameHash k2) (kindNum d2) a2 := by
  unfold CompareKeys CompareNames CompareDetails lex2 cmpNat tupLt
  split_ifs <;> (try exact False.elim (by assumption)) <;> (try simp_all) <;> omega

theorem CompareKeys_eq_iff (k1 : Name) (d1 : PropertyKind) (a1 : Nat)
    (k2 : Name) (d2 : PropertyKind) (a2 : Nat) :
    CompareKeys k1 d1 a1 k2 d2 a2 = 0 ↔
      (nameBand k1 = nameBand k2 ∧ nameHash k1 = nameHash k2 ∧
       kindNum d1 = kindNum d2 ∧ a1 = a2) := by
  unfold CompareKeys CompareNames CompareDetails lex2 cmpNat
  split_ifs <;> (try exact False.elim (by assumption)) <;> (try simp_all) <;> omega

theorem CompareKeys_pos_iff (k1 : Name) (d1 : PropertyKind) (a1 : Nat)
    (k2 : Name) (d2 : PropertyKind) (a2 : Nat) :
    0 < CompareKeys k1 d1 a1 k2 d2 a2 ↔
      tupLt (nameBand k2) (nameHash k2) (kindNum d2) a2
        (nameBand k1) (nameHash k1) (kindNum d1) a1 := by
  unfold CompareKeys CompareNames CompareDetails lex2 cmpNat tupLt
  split_ifs <;> (try exact False.elim (by assumption)) <;> (try simp_all) <;> omega

theorem tupLt_trans {b1 h1 k1 a1 b2 h2 k2 a2 b3 h3 k3 a3 : Nat}
    (h12 : tupLt b1 h1 k1 a1 b2 h2 k2 a2) (h23 : tupLt b2 h2 k2 a2 b3 h3 k3 a3) :
    tupLt b1 h1 k1 a1 b3 h3 k3 a3 := by
  unfold tupLt at *
  omega

theorem tupLt_irrefl {b h k a : Nat} : ¬ tupLt b h k a b h k a := by
  unfold tupLt
  omega

theorem entryLt_iff (e1 e2 : TransitionEntry) :
    entryLt e1 e2 ↔ tupLt (eB e1) (eH e1) (eK e1) (eA e1) (eB e2) (eH e2) (eK e2) (eA e2) := by
  unfold entryLt cmpE eB eH eK eA
  exact CompareKeys_lt_iff _ _ _ _ _ _

theorem entryLe_iff (e1 e2 : TransitionEntry) :
    entryLe e1 e2 ↔
      (tupLt (eB e1) (eH e1) (eK e1) (eA e1) (eB e2) (eH e2) (eK e2) (eA e2) ∨ tupEqE e1 e2) := by
  unfold entryLe tupEqE
  constructor
  · intro h
    rcases lt_trichotomy (cmpE e1 e2) 0 with hlt | heq | hgt
    · exact Or.inl ((entryLt_iff e1 e2).mp hlt)
    · refine Or.inr ?_
      have := (CompareKeys_eq_iff e1.key (entryKind e1) (entryAttrs e1)
        e2.key (entryKind e2) (entryAttrs e2)).mp heq
      exact ⟨this.1, this.2.1, this.2.2.1, this.2.2.2⟩
    · omega
  · intro h
    rcases h with h | h
    · have := (entryLt_iff e1 e2).mpr h
      unfold entryLt at this
      omega
    · have : cmpE e1 e2 = 0 := by
        unfold cmpE
        exact (CompareKeys_eq_iff _ _ _ _ _ _).mpr ⟨h.1, h.2.1, h.2.2.1, h.2.2.2⟩
      omega

theorem entryLt_of_le_of_ne (e1 e2 : TransitionEntry) (hle : entryLe e1 e2)
    (hne : ¬ tupEqE e1 e2) : entryLt e1 e2 := by
  rcases (entryLe_iff e1 e2).mp hle with h | h
  · exact (entryLt_iff e1 e2).mpr h
  · exact absurd h hne

theorem entryLt_asymm {e1 e2 : TransitionEntry} (h : entryLt e1 e2) : ¬ entryLt e2 e1 := by
  rw [entryLt_iff] at *
  unfold tupLt at *
  omega

theorem entryLt_trans {e1 e2 e3 : TransitionEntry} (h12 : entryLt e1 e2)
    (h23 : entryLt e2 e3) : entryLt e1 e3 := by
  rw [entryLt_iff] at *
  exact tupLt_trans h12 h23

theorem entryLt_ne_tup {e1 e2 : TransitionEntry} (h : entryLt e1 e2) : ¬ tupEqE e1 e2 := by
  rw [entryLt_iff] at h
  unfold tupEqE
  intro hc
  rw [hc.1, hc.2.1, hc.2.2.1, hc.2.2.2] at h
  exact tupLt_irrefl h

/-! ### Small list facts -/

theorem filterMap_id_length_eq {α : Type} (l : List (Option α))
    (h : ∀ s ∈ l, s ≠ none) : (l.filterMap id).length = l.length := by
  induction l with
  | nil => rfl
  | cons x xs ih =>
    cases x with
    | none => exact absurd rfl (h none (List.mem_cons_self _ _))
    | some v =>
      simp only [List.filterMap_cons, id, List.length_cons]
      rw [ih (fun s hs => h s (List.mem_cons_of_mem _ hs))]

theorem filterMap_id_length_lt {α : Type} (l : List (Option α))
    (h : none ∈ l) : (l.filterMap id).length < l.length := by
  induction l with
  | nil => cases h
  | cons x xs ih =>
    cases x with
    | none =>
      simp only [List.filterMap_cons, List.length_cons]
      have := List.length_filterMap_le (fun o : Option α => o) xs
      simpa [id] using Nat.lt_succ_of_le this
    | some v =>
      have hx : none ∈ xs := by
        rcases List.mem_cons.mp h with h1 | h1
        · cases h1
        · exact h1
      simp only [List.filterMap_cons, id, List.length_cons]
      exact Nat.succ_lt_succ (ih hx)

theorem set_append_cons {α : Type} (A : List α) (x v : α) (B : List α) :
    (A ++ x :: B).set A.length v = A ++ v :: B := by
  induction A with
  | nil => rfl
  | cons a as ih => simp [List.set, ih]

theorem set_self_of_getElem {α : Type} (l : List α) (i : Nat) (e : α)
    (h : l[i]? = some e) : l.set i e = l := by
  induction l generalizing i with
  | nil => simp at h
  | cons x xs ih =>
    cases i with
    | zero =>
      simp at h
      simp [List.set, h]
    | succ j =>
      simp at h
      simp [List.set, ih j h]

theorem maskFilter_sublist (mask : List Bool) (l : List TransitionEntry) :
    (maskFilter mask l).Sublist l := by
  induction l generalizing mask with
  | nil => cases mask <;> simp [maskFilter]
  | cons e es ih =>
    cases mask with
    | nil => simp [maskFilter]
    | cons b bs =>
      cases b with
      | true => simpa [maskFilter] using (ih bs).cons₂ e
      | false => simpa [maskFilter] using (ih bs).cons e

/-! ### Claim theorems: scenario, migration target, prototype cache, lock trace -/

/-- Claim C1: from the Uninitialized encoding, a simple Insert of
`("x", data, NONE) → S1` makes the encoding SimpleTransition and
`SearchTransition` returns `S1`; a second distinct simple Insert of
`("y", data, NONE) → S2` makes the encoding FullTransitionArray with count 2,
holding "x" and "y" at their name-sorted positions, and both edges are found
by `SearchTransition`. -/
theorem C1_uninitialized_then_simple_then_full :
    TransitionsAccessor.Insert .uninitialized nameX S1 .SIMPLE_PROPERTY_TRANSITION noGC =
      some stSimpleX ∧
    encoding stSimpleX = .kWeakRef ∧
    TransitionsAccessor.SearchTransition stSimpleX nameX .kData attrNONE = some S1 ∧
    TransitionsAccessor.Insert stSimpleX nameY S2 .SIMPLE_PROPERTY_TRANSITION noGC =
      some stFullXY ∧
    encoding stFullXY = .kFullTransitionArray ∧
    TransitionsAccessor.NumberOfTransitions stFullXY = 2 ∧
    stFullXY = .fullArray ⟨2, [⟨nameX, some S1⟩, ⟨nameY, some S2⟩], none⟩ ∧
    TransitionsAccessor.SearchTransition stFullXY nameX .kData attrNONE = some S1 ∧
    TransitionsAccessor.SearchTransition stFullXY nameY .kData attrNONE = some S2 := by
  decide

/-- Claim C10: `SetMigrationTarget` is a silent no-op unless the encoding is
Uninitialized; only then does it store the migration target, making the
encoding MigrationTarget. -/
theorem C10_set_migration_target_frame (st : RawTransitions) (m : Map) :
    (encoding st ≠ .kUninitialized → TransitionsAccessor.SetMigrationTarget st m = st) ∧
    (encoding st = .kUninitialized →
      TransitionsAccessor.SetMigrationTarget st m = .migrationTarget m ∧
      encoding (TransitionsAccessor.SetMigrationTarget st m) = .kMigrationTarget) := by
  unfold TransitionsAccessor.SetMigrationTarget
  constructor
  · intro h
    rw [if_pos h]
  · intro h
    rw [if_neg (by simp [h])]
    exact ⟨rfl, rfl⟩

/-- Witness for C10 at concrete inputs: a SimpleTransition state is left
untouched, and from Uninitialized the target is stored. -/
theorem C10_set_migration_target_frame_witness :
    TransitionsAccessor.SetMigrationTarget stSimpleX S2 = stSimpleX ∧
    TransitionsAccessor.SetMigrationTarget .uninitialized S2 = .migrationTarget S2 :=
  ⟨(C10_set_migration_target_frame stSimpleX S2).1 (by decide),
   ((C10_set_migration_target_frame .uninitialized S2).2 rfl).1⟩

/-- Claim C9 is violated by the code: at this concrete input (a map whose
prototype sub-table is full, uncompactable, and below the hard maximum) the
event trace of `PutPrototypeTransition` performs an allocating call
(`GrowPrototypeTransitionArray`, line 393) between the acquisition of the
exclusive lock (line 386) and its release, so the reader/writer lock is held
across an allocation. -/
theorem C9_lock_held_across_allocation :
    allocUnderLock (PutPrototypeTransitionTrace false false stProtoGrow) 0 = true := by
  decide

/-- Claim C7: when compaction frees no slot and the prototype cache's capacity
is already `kMaxCachedPrototypeTransitions`, `PutPrototypeTransition` returns
without inserting, without signalling any failure (it is total and merely
returns), and leaves the storage - cache contents and live count - unchanged. -/
theorem C7_put_at_max_silent_noop (st : RawTransitions) (a : TransitionArray)
    (c : ProtoCache) (target : Map)
    (hst : st = .fullArray a) (hc : a.prototypeTransitions = some c)
    (hlen : c.slots.length = c.capacity)
    (hcount : c.count = c.capacity)
    (hmax : c.capacity = kMaxCachedPrototypeTransitions)
    (hlive : ∀ s ∈ c.slots.take c.count, s ≠ none) :
    TransitionsAccessor.PutPrototypeTransition false false st target = st := by
  subst hst
  have hne : c.count ≠ 0 := by
    rw [hcount, hmax]
    unfold kMaxCachedPrototypeTransitions
    omega
  have hlenT : (c.slots.take c.count).length = c.count := by
    rw [List.length_take, hlen, hcount]
    omega
  have hsurv : ((c.slots.take c.count).filterMap id).length = c.count := by
    rw [filterMap_id_length_eq _ hlive, hlenT]
  unfold TransitionsAccessor.PutPrototypeTransition
  simp only [FLAG_cache_prototype_transitions, Bool.false_eq_true, if_false, not_true,
    or_false, getProtoCache, hc, protoCapacityInt, protoCount]
  rw [if_pos (by push_cast; omega)]
  unfold TransitionArray.CompactPrototypeTransitionArray
  rw [if_neg hne]
  have hfreed : decide (((c.slots.take c.count).filterMap id).length < c.count) = false := by
    simp [hsurv]
  simp only [hfreed, Bool.false_eq_true, if_false]
  rw [if_pos (by exact_mod_cast hmax)]

set_option maxRecDepth 4000 in
/-- Witness for C7 at the concrete at-maximum cache `protoCacheMax`. -/
theorem C7_put_at_max_silent_noop_witness :
    TransitionsAccessor.PutPrototypeTransition false false stProtoMax S2 = stProtoMax :=
  C7_put_at_max_silent_noop stProtoMax _ protoCacheMax S2 rfl rfl (by decide) (by decide)
    (by decide) (by decide)

/-! ### Characterisation of the search functions -/

theorem searchNameList_ins_le (name : Name) :
    ∀ l : List TransitionEntry, (searchNameList name l).2 ≤ l.length := by
  intro l
  induction l with
  | nil => simp [searchNameList]
  | cons e rest ih =>
    simp only [searchNameList, List.length_cons]
    split_ifs
    · simpa using Nat.succ_le_succ ih
    · simp
    · simp

theorem searchNameList_found (name : Name) :
    ∀ (l : List TransitionEntry) (i : Nat), (searchNameList name l).1 = some i →
      ∃ e, l[i]? = some e ∧ e.key = name ∧
        ∀ e' ∈ l.take i, CompareNames e'.key name < 0 := by
  intro l
  induction l with
  | nil => intro i h; simp [searchNameList] at h
  | cons e rest ih =>
    intro i h
    simp only [searchNameList] at h
    split_ifs at h with h1 h2
    · simp only [] at h
      obtain ⟨j, hj, rfl⟩ := Option.map_eq_some'.mp h
      obtain ⟨e', he', hkey, htake⟩ := ih j hj
      refine ⟨e', by simpa using he', hkey, ?_⟩
      intro x hx
      rw [List.take_succ_cons] at hx
      rcases List.mem_cons.mp hx with rfl | hx'
      · exact h1
      · exact htake x hx'
    · simp only [] at h
      simp only [Option.some.injEq] at h
      subst h
      exact ⟨e, by simp, h2, by simp⟩

theorem searchNameList_none (name : Name) :
    ∀ (l : List TransitionEntry) (ins : Nat), searchNameList name l = (none, ins) →
      (∀ e' ∈ l.take ins, CompareNames e'.key name < 0) ∧
      (∀ e', (l.drop ins).head? = some e' → 0 < CompareNames e'.key name) := by
  intro l
  induction l with
  | nil =>
    intro ins h
    rw [searchNameList, Prod.ext_iff] at h
    simp only [] at h
    obtain ⟨-, hs⟩ := h
    subst hs
    simp
  | cons e rest ih =>
    intro ins h
    rcases hsn : searchNameList name rest with ⟨f, i⟩
    simp only [searchNameList, hsn] at h
    split_ifs at h with h1 h2
    · rw [Prod.ext_iff] at h
      simp only [] at h
      obtain ⟨hf, hs⟩ := h
      obtain rfl : f = none := Option.map_eq_none'.mp hf
      subst hs
      obtain ⟨htake, hhead⟩ := ih i hsn
      constructor
      · intro x hx
        rw [List.take_succ_cons] at hx
        rcases List.mem_cons.mp hx with rfl | hx'
        · exact h1
        · exact htake x hx'
      · intro x hx
        rw [List.drop_succ_cons] at hx
        exact hhead x hx
    · simp at h
    · rw [Prod.ext_iff] at h
      simp only [] at h
      obtain ⟨-, hs⟩ := h
      subst hs
      refine ⟨by simp, ?_⟩
      intro x hx
      simp only [List.drop_zero, List.head?_cons, Option.some.injEq] at hx
      subst hx
      rcases lt_trichotomy (CompareNames e.key name) 0 with hc | hc | hc
      · exact absurd hc h1
      · obtain ⟨hb, hh⟩ := (CompareNames_eq_iff e.key name).mp hc
        exact absurd (name_eq_of_band_hash hb hh) h2
      · exact hc

theorem searchDetailsList_ins_le (key : Name) (kind : PropertyKind) (attrs : Nat) :
    ∀ l : List TransitionEntry, (searchDetailsList key kind attrs l).2 ≤ l.length := by
  intro l
  induction l with
  | nil => simp [searchDetailsList]
  | cons e rest ih =>
    simp only [searchDetailsList, List.length_cons]
    split_ifs
    · simp
    · simp
    · simpa using Nat.succ_le_succ ih
    · simp

theorem searchDetailsList_found (key : Name) (kind : PropertyKind) (attrs : Nat) :
    ∀ (l : List TransitionEntry) (i : Nat), (searchDetailsList key kind attrs l).1 = some i →
      ∃ e, l[i]? = some e ∧ e.key = key ∧
        CompareDetails kind attrs (targetKind e) (targetAttrs e) = 0 ∧
        ∀ e' ∈ l.take i,
          e'.key = key ∧ 0 < CompareDetails kind attrs (targetKind e') (targetAttrs e') := by
  intro l
  induction l with
  | nil => intro i h; simp [searchDetailsList] at h
  | cons e rest ih =>
    intro i h
    simp only [searchDetailsList] at h
    split_ifs at h with h1 h2 h3
    · simp only [] at h
      simp only [Option.some.injEq] at h
      subst h
      exact ⟨e, by simp, h1, h2, by simp⟩
    · simp only [] at h
      obtain ⟨j, hj, rfl⟩ := Option.map_eq_some'.mp h
      obtain ⟨e', he', hkey, hdet, htake⟩ := ih j hj
      refine ⟨e', by simpa using he', hkey, hdet, ?_⟩
      intro x hx
      rw [List.take_succ_cons] at hx
      rcases List.mem_cons.mp hx with rfl | hx'
      · exact ⟨h1, by omega⟩
      · exact htake x hx'

theorem searchDetailsList_none (key : Name) (kind : PropertyKind) (attrs : Nat) :
    ∀ (l : List TransitionEntry) (ins : Nat), searchDetailsList key kind attrs l = (none, ins) →
      (∀ e' ∈ l.take ins,
        e'.key = key ∧ 0 < CompareDetails kind attrs (targetKind e') (targetAttrs e')) ∧
      (∀ e', (l.drop ins).head? = some e' →
        e'.key ≠ key ∨ CompareDetails kind attrs (targetKind e') (targetAttrs e') < 0) := by
  intro l
  induction l with
  | nil =>
    intro ins h
    rw [searchDetailsList, Prod.ext_iff] at h
    simp only [] at h
    obtain ⟨-, hs⟩ := h
    subst hs
    simp
  | cons e rest ih =>
    intro ins h
    rcases hsd : searchDetailsList key kind attrs rest with ⟨f, i⟩
    simp only [searchDetailsList, hsd] at h
    split_ifs at h with h1 h2 h3
    · simp at h
    · rw [Prod.ext_iff] at h
      simp only [] at h
      obtain ⟨-, hs⟩ := h
      subst hs
      refine ⟨by simp, ?_⟩
      intro x hx
      simp only [List.drop_zero, List.head?_cons, Option.some.injEq] at hx
      subst hx
      exact Or.inr h3
    · rw [Prod.ext_iff] at h
      simp only [] at h
      obtain ⟨hf, hs⟩ := h
      obtain rfl : f = none := Option.map_eq_none'.mp hf
      subst hs
      obtain ⟨htake, hhead⟩ := ih i hsd
      constructor
      · intro x hx
        rw [List.take_succ_cons] at hx
        rcases List.mem_cons.mp hx with rfl | hx'
        · exact ⟨h1, by omega⟩
        · exact htake x hx'
      · intro x hx
        rw [List.drop_succ_cons] at hx
        exact hhead x hx
    · rw [Prod.ext_iff] at h
      simp only [] at h
      obtain ⟨-, hs⟩ := h
      subst hs
      refine ⟨by simp, ?_⟩
      intro x hx
      simp only [List.drop_zero, List.head?_cons, Option.some.injEq] at hx
      subst hx
      exact Or.inl h1

theorem listSearch_ins_le (kind : PropertyKind) (name : Name) (attrs : Nat)
    (l : List TransitionEntry) : (listSearch kind name attrs l).2 ≤ l.length := by
  unfold listSearch
  rcases hsn : searchNameList name l with ⟨f, i⟩
  cases f with
  | none =>
    have := searchNameList_ins_le name l
    rw [hsn] at this
    simpa using this
  | some t =>
    obtain ⟨e0, he0, -, -⟩ := searchNameList_found name l t (by rw [hsn])
    simp only []
    rw [he0]
    have h1 := searchDetailsList_ins_le e0.key kind attrs (l.drop t)
    have h2 : t < l.length := (List.getElem?_eq_some.mp he0).1
    simp only [List.length_drop] at h1
    simp only []
    omega

theorem listSearch_found (kind : PropertyKind) (name : Name) (attrs : Nat)
    (l : List TransitionEntry) (idx : Nat)
    (h : (listSearch kind name attrs l).1 = some idx) :
    ∃ e, l[idx]? = some e ∧ e.key = name ∧
      CompareDetails kind attrs (targetKind e) (targetAttrs e) = 0 := by
  unfold listSearch at h
  rcases hsn : searchNameList name l with ⟨f, i⟩
  rw [hsn] at h
  cases f with
  | none => simp at h
  | some t =>
    obtain ⟨e0, he0, hkey0, -⟩ := searchNameList_found name l t (by rw [hsn])
    simp only [] at h
    rw [he0] at h
    simp only [] at h
    obtain ⟨j, hj, rfl⟩ := Option.map_eq_some'.mp h
    obtain ⟨e, he, hkey, hdet, -⟩ := searchDetailsList_found e0.key kind attrs (l.drop t) j hj
    rw [List.getElem?_drop] at he
    rw [Nat.add_comm] at he
    exact ⟨e, he, by rw [hkey, hkey0], hdet⟩

/-- Every element of `l.drop n` is tuple-above a fixed tuple as soon as the
head is, on a sorted list. -/
theorem drop_all_of_head_tupLt (l : List TransitionEntry) (hp : l.Pairwise entryLt)
    (n : Nat) (b h k a : Nat)
    (hhead : ∀ e, (l.drop n).head? = some e → tupLt b h k a (eB e) (eH e) (eK e) (eA e)) :
    ∀ e ∈ l.drop n, tupLt b h k a (eB e) (eH e) (eK e) (eA e) := by
  have hpd : (l.drop n).Pairwise entryLt := hp.sublist (List.drop_sublist n l)
  cases hd : l.drop n with
  | nil => intro e he; simp at he
  | cons x xs =>
    intro e he
    rw [hd] at hpd
    have hx := hhead x (by rw [hd]; exact List.head?_cons)
    rcases List.mem_cons.mp he with rfl | he'
    · exact hx
    · have hlt := (List.pairwise_cons.mp hpd).1 e he'
      exact tupLt_trans hx ((entryLt_iff x e).mp hlt)

theorem tupLt_of_name_lt {e : TransitionEntry} {name : Name}
    (hc : CompareNames e.key name < 0) (dk da : Nat) :
    tupLt (eB e) (eH e) (eK e) (eA e) (nameBand name) (nameHash name) dk da := by
  have h2 := (CompareNames_lt_iff e.key name).mp hc
  unfold tupLt eB eH
  omega

theorem tupLt_of_name_gt {e : TransitionEntry} {name : Name}
    (hc : 0 < CompareNames e.key name) (dk da : Nat) :
    tupLt (nameBand name) (nameHash name) dk da (eB e) (eH e) (eK e) (eA e) := by
  have h2 := (CompareNames_pos_iff e.key name).mp hc
  unfold tupLt eB eH
  omega

theorem entryKind_eq_targetKind {e : TransitionEntry}
    (hns : IsSpecialTransition e.key = false) : entryKind e = targetKind e := by
  unfold entryKind
  rw [hns]
  simp

theorem entryAttrs_eq_targetAttrs {e : TransitionEntry}
    (hns : IsSpecialTransition e.key = false) : entryAttrs e = targetAttrs e := by
  unfold entryAttrs
  rw [hns]
  simp

/-- The split established by a missed `SearchName` on a sorted array: every
entry before the insertion point is name-below the searched name, every entry
from the insertion point on is name-above it (details are irrelevant in both
bands). -/
theorem searchName_none_split (name : Name) (l : List TransitionEntry)
    (hp : l.Pairwise entryLt) (ins : Nat)
    (hres : searchNameList name l = (none, ins)) :
    ins ≤ l.length ∧
    (∀ e ∈ l.take ins, ∀ dk da : Nat,
      tupLt (eB e) (eH e) (eK e) (eA e) (nameBand name) (nameHash name) dk da) ∧
    (∀ e ∈ l.drop ins, ∀ dk da : Nat,
      tupLt (nameBand name) (nameHash name) dk da (eB e) (eH e) (eK e) (eA e)) := by
  obtain ⟨htake, hhead⟩ := searchNameList_none name l ins hres
  refine ⟨?_, ?_, ?_⟩
  · have := searchNameList_ins_le name l
    rw [hres] at this
    exact this
  · intro e he dk da
    exact tupLt_of_name_lt (htake e he) dk da
  · intro e he dk da
    exact drop_all_of_head_tupLt l hp ins _ _ _ _
      (fun x hx => tupLt_of_name_gt (hhead x hx) dk da) e he

/-- The split established by a missed composite `Search` on a sorted array:
every entry before the insertion point is tuple-below the searched
`(name, kind, attributes)` tuple, every entry from the insertion point on is
tuple-above it.  The searched name is a regular name (special transitions are
searched by `SearchSpecial`/`SearchName` instead, per the assertion at
transitions.cc lines 131-132). -/
theorem listSearch_none_split (kind : PropertyKind) (name : Name) (attrs : Nat)
    (hns : IsSpecialTransition name = false)
    (l : List TransitionEntry) (hp : l.Pairwise entryLt) (ins : Nat)
    (hres : listSearch kind name attrs l = (none, ins)) :
    ins ≤ l.length ∧
    (∀ e ∈ l.take ins,
      tupLt (eB e) (eH e) (eK e) (eA e) (nameBand name) (nameHash name) (kindNum kind) attrs) ∧
    (∀ e ∈ l.drop ins,
      tupLt (nameBand name) (nameHash name) (kindNum kind) attrs (eB e) (eH e) (eK e) (eA e)) := by
  have hle : ins ≤ l.length := by
    have := listSearch_ins_le kind name attrs l
    rw [hres] at this
    exact this
  unfold listSearch at hres
  rcases hsn : searchNameList name l with ⟨f, i⟩
  rw [hsn] at hres
  cases f with
  | none =>
    simp only [] at hres
    rw [Prod.ext_iff] at hres
    simp only [] at hres
    obtain ⟨-, rfl⟩ := hres
    obtain ⟨-, htake, hdrop⟩ := searchName_none_split name l hp i hsn
    exact ⟨hle, fun e he => htake e he (kindNum kind) attrs,
      fun e he => hdrop e he (kindNum kind) attrs⟩
  | some t =>
    obtain ⟨e0, he0, hkey0, htakeName⟩ := searchNameList_found name l t (by rw [hsn])
    simp only [] at hres
    rw [he0] at hres
    simp only [] at hres
    rw [Prod.ext_iff] at hres
    simp only [] at hres
    obtain ⟨hf, hs⟩ := hres
    have hfn : (searchDetailsList e0.key kind attrs (l.drop t)).1 = none :=
      Option.map_eq_none'.mp hf
    have hdrest : searchDetailsList e0.key kind attrs (l.drop t) =
        (none, (searchDetailsList e0.key kind attrs (l.drop t)).2) := Prod.ext hfn rfl
    set j := (searchDetailsList e0.key kind attrs (l.drop t)).2 with hj
    obtain ⟨htakeDet, hheadDet⟩ := searchDetailsList_none e0.key kind attrs (l.drop t) j hdrest
    have hins : ins = t + j := by omega
    subst hins
    have htlen : t < l.length := (List.getElem?_eq_some.mp he0).1
    -- the searched name is regular, so every entry in the run reads its
    -- details from its target
    have hkindOf : ∀ x : TransitionEntry, x.key = name →
        eK x = kindNum (targetKind x) ∧ eA x = targetAttrs x := by
      intro x hx
      have hxs : IsSpecialTransition x.key = false := by rw [hx]; exact hns
      unfold eK eA
      rw [entryKind_eq_targetKind hxs, entryAttrs_eq_targetAttrs hxs]
      exact ⟨rfl, rfl⟩
    have hnamePart : ∀ x : TransitionEntry, x.key = name →
        eB x = nameBand name ∧ eH x = nameHash name := by
      intro x hx
      unfold eB eH
      rw [hx]
      exact ⟨rfl, rfl⟩
    refine ⟨hle, ?_, ?_⟩
    · -- entries below the insertion point
      intro e he
      rw [List.take_add] at he
      rcases List.mem_append.mp he with he' | he'
      · exact tupLt_of_name_lt (htakeName e he') (kindNum kind) attrs
      · obtain ⟨hkey, hdet⟩ := htakeDet e he'
        rw [hkey0] at hkey
        obtain ⟨hb, hh⟩ := hnamePart e hkey
        obtain ⟨hk, ha⟩ := hkindOf e hkey
        have := (CompareDetails_pos_iff kind attrs (targetKind e) (targetAttrs e)).mp hdet
        unfold tupLt
        omega
    · -- entries from the insertion point on: establish the head fact, then
      -- extend along the sorted tail
      intro e he
      refine drop_all_of_head_tupLt l hp (t + j) _ _ _ _ ?_ e he
      intro x hx
      rw [← List.drop_drop, List.head?_eq_getElem?] at hx
      rcases Decidable.em (x.key = name) with hxk | hxk
      · -- the run stopped with the same name: the comparator passed the
        -- sorted position, so the details decide
        have hxd : CompareDetails kind attrs (targetKind x) (targetAttrs x) < 0 := by
          rcases hheadDet x (by rw [List.head?_eq_getElem?]; exact hx) with h1 | h2
          · exact absurd (by rw [hxk, hkey0] : x.key = e0.key) h1
          · exact h2
        obtain ⟨hb, hh⟩ := hnamePart x hxk
        obtain ⟨hk, ha⟩ := hkindOf x hxk
        have := (CompareDetails_lt_iff kind attrs (targetKind x) (targetAttrs x)).mp hxd
        unfold tupLt
        omega
      · -- the run ended on a key change: the searched name sorts strictly
        -- below the stopping entry because the run entry e0 does
        have hj1 : 1 ≤ j := by
          rcases Nat.eq_zero_or_pos j with hj0 | hj0
          · exfalso
            rw [hj0, List.drop_zero, List.getElem?_drop, Nat.add_zero, he0] at hx
            simp only [Option.some.injEq] at hx
            subst hx
            exact hxk hkey0
          · exact hj0
        have hp2 : (l.take (t + j) ++ l.drop (t + j)).Pairwise entryLt := by
          rw [List.take_append_drop]
          exact hp
        have hcross := (List.pairwise_append.mp hp2).2.2
        have he0mem : e0 ∈ l.take (t + j) := by
          rw [List.mem_take_iff_getElem]
          refine ⟨t, ?_, ?_⟩
          · simp only [lt_inf_iff]
            omega
          · exact ((List.getElem?_eq_some.mp he0).2)
        have hxmem : x ∈ l.drop (t + j) := by
          rw [← List.drop_drop]
          exact List.getElem?_mem hx
        have hlt := hcross e0 he0mem x hxmem
        rw [entryLt_iff] at hlt
        obtain ⟨hb0, hh0⟩ := hnamePart e0 hkey0
        have hxneq : ¬ (eB x = nameBand name ∧ eH x = nameHash name) := by
          rintro ⟨hbx, hhx⟩
          refine hxk (name_eq_of_band_hash ?_ ?_)
          · unfold eB at hbx
            rw [hbx]
          · unfold eH at hhx
            rw [hhx]
        unfold tupLt at hlt ⊢
        omega

/-- Inserting an element at a split position that respects the order preserves
pairwise sortedness. -/
theorem pairwise_insert_at (l : List TransitionEntry) (hp : l.Pairwise entryLt)
    (x : TransitionEntry) (ins : Nat)
    (h1 : ∀ e ∈ l.take ins, entryLt e x) (h2 : ∀ e ∈ l.drop ins, entryLt x e) :
    (l.take ins ++ x :: l.drop ins).Pairwise entryLt := by
  have hp2 : (l.take ins ++ l.drop ins).Pairwise entryLt := by
    rw [List.take_append_drop]
    exact hp
  obtain ⟨hpt, hpd, hcross⟩ := List.pairwise_append.mp hp2
  refine List.pairwise_append.mpr ⟨hpt, ?_, ?_⟩
  · exact List.pairwise_cons.mpr ⟨h2, hpd⟩
  · intro a ha b hb
    rcases List.mem_cons.mp hb with rfl | hb'
    · exact h1 a ha
    · exact hcross a ha b hb'

theorem entryLt_congr_left {e e' x : TransitionEntry} (ht : tupEqE e' e)
    (h : entryLt e x) : entryLt e' x := by
  rw [entryLt_iff] at h ⊢
  obtain ⟨ht1, ht2, ht3, ht4⟩ := ht
  rw [ht1, ht2, ht3, ht4]
  exact h

theorem entryLt_congr_right {e e' x : TransitionEntry} (ht : tupEqE e' e)
    (h : entryLt x e) : entryLt x e' := by
  rw [entryLt_iff] at h ⊢
  obtain ⟨ht1, ht2, ht3, ht4⟩ := ht
  rw [ht1, ht2, ht3, ht4]
  exact h

/-- Replacing an element by a tuple-equal element preserves sortedness. -/
theorem pairwise_set_tupEq (l : List TransitionEntry) (hp : l.Pairwise entryLt)
    (i : Nat) (e e' : TransitionEntry) (hi : l[i]? = some e) (ht : tupEqE e' e) :
    (l.set i e').Pairwise entryLt := by
  induction l generalizing i with
  | nil => simp
  | cons y ys ih =>
    obtain ⟨hy, hys⟩ := List.pairwise_cons.mp hp
    cases i with
    | zero =>
      simp only [List.getElem?_cons_zero, Option.some.injEq] at hi
      subst hi
      rw [List.set_cons_zero]
      refine List.pairwise_cons.mpr ⟨?_, hys⟩
      intro z hz
      exact entryLt_congr_left ht (hy z hz)
    | succ j =>
      simp only [List.getElem?_cons_succ] at hi
      rw [List.set_cons_succ]
      refine List.pairwise_cons.mpr ⟨?_, ih hys j hi⟩
      intro z hz
      rcases List.mem_or_eq_of_mem_set hz with hz' | rfl
      · exact hy z hz'
      · exact entryLt_congr_right ht (hy e (List.getElem?_mem hi))

/-- Claim C5: Insert on an already-present `(name, kind, attributes)` tuple
overwrites the target in place and appends nothing, so inserting the identical
`(name, kind, attributes, target)` edge twice leaves the storage unchanged
after the second Insert - both in the SimpleTransition re-transition case (the
single weak pointer is overwritten with the same target) and in the
FullTransitionArray found-entry case (the found slot's target is overwritten
with the same target). -/
theorem C5_insert_overwrite_idempotent :
    (∀ (name : Name) (target : Map) (gc : GCOracle), target.descKey = name →
      TransitionsAccessor.Insert (.weakRef (some target)) name target
        .SIMPLE_PROPERTY_TRANSITION gc = some (.weakRef (some target))) ∧
    (∀ (a : TransitionArray) (name : Name) (target : Map) (flag : SimpleTransitionFlag)
        (gc : GCOracle) (idx : Nat) (e : TransitionEntry),
      (insertSearch a name target flag).1 = some idx → a.entries[idx]? = some e →
      e.target = some target →
      TransitionsAccessor.Insert (.fullArray a) name target flag gc =
        some (.fullArray a)) := by
  constructor
  · intro name target gc hkey
    unfold TransitionsAccessor.Insert
    simp [hkey]
  · intro a name target flag gc idx e hfound hget htgt
    unfold TransitionsAccessor.Insert
    simp only []
    rcases hs : insertSearch a name target flag with ⟨f, i⟩
    rw [hs] at hfound
    simp only [] at hfound
    subst hfound
    simp only []
    have hset : setTargetAt a.entries idx (some target) = a.entries := by
      unfold setTargetAt
      rw [hget]
      simp only []
      have hee : ({ e with target := some target } : TransitionEntry) = e := by
        cases e
        simp only [Option.some.injEq] at htgt ⊢
        rw [htgt]
      rw [hee]
      exact set_self_of_getElem a.entries idx e hget
    rw [hset]

/-- Witness for C5: re-inserting the "x" edge of the two-entry scenario array
(and of the simple-transition state) leaves the storage unchanged. -/
theorem C5_insert_overwrite_idempotent_witness :
    TransitionsAccessor.Insert (.weakRef (some S1)) nameX S1
      .SIMPLE_PROPERTY_TRANSITION noGC = some (.weakRef (some S1)) ∧
    TransitionsAccessor.Insert
      (.fullArray ⟨2, [⟨nameX, some S1⟩, ⟨nameY, some S2⟩], none⟩)
      nameX S1 .SIMPLE_PROPERTY_TRANSITION noGC =
      some (.fullArray ⟨2, [⟨nameX, some S1⟩, ⟨nameY, some S2⟩], none⟩) :=
  ⟨C5_insert_overwrite_idempotent.1 nameX S1 noGC rfl,
   C5_insert_overwrite_idempotent.2 ⟨2, [⟨nameX, some S1⟩, ⟨nameY, some S2⟩], none⟩
     nameX S1 .SIMPLE_PROPERTY_TRANSITION noGC 0 ⟨nameX, some S1⟩
     (by decide) (by decide) rfl⟩

/-- Claim C8: `HasIntegrityLevelTransitionTo` checks frozen, then sealed, then
non-extensible, returning the symbol and level of the first special transition
leading exactly to the queried shape; with three distinct targets each is
reported with its own pair, and an unrelated shape yields none. -/
theorem C8_integrity_level_priority (st : RawTransitions) (t1 t2 t3 u : Map)
    (h1 : TransitionsAccessor.SearchSpecial st .frozen = some t1)
    (h2 : TransitionsAccessor.SearchSpecial st .sealed = some t2)
    (h3 : TransitionsAccessor.SearchSpecial st .nonextensible = some t3)
    (d12 : t1 ≠ t2) (d13 : t1 ≠ t3) (d23 : t2 ≠ t3)
    (hu1 : u ≠ t1) (hu2 : u ≠ t2) (hu3 : u ≠ t3) :
    TransitionsAccessor.HasIntegrityLevelTransitionTo st t1 = some (.frozen, attrFROZEN) ∧
    TransitionsAccessor.HasIntegrityLevelTransitionTo st t2 = some (.sealed, attrSEALED) ∧
    TransitionsAccessor.HasIntegrityLevelTransitionTo st t3 = some (.nonextensible, attrNONE) ∧
    TransitionsAccessor.HasIntegrityLevelTransitionTo st u = none := by
  unfold TransitionsAccessor.HasIntegrityLevelTransitionTo
  rw [h1, h2, h3]
  refine ⟨?_, ?_, ?_, ?_⟩
  · rw [if_pos rfl]
  · rw [if_neg (by simpa using d12), if_pos rfl]
  · rw [if_neg (by simpa using d13), if_neg (by simpa using d23), if_pos rfl]
  · rw [if_neg (by simpa using (Ne.symm hu1)), if_neg (by simpa using (Ne.symm hu2)),
      if_neg (by simpa using (Ne.symm hu3))]

theorem eB_mk (k : Name) (t : Option Map) : eB ⟨k, t⟩ = nameBand k := rfl

theorem eH_mk (k : Name) (t : Option Map) : eH ⟨k, t⟩ = nameHash k := rfl

theorem entry_tup_regular (name : Name) (target : Map)
    (hns : IsSpecialTransition name = false) :
    eK (⟨name, some target⟩ : TransitionEntry) = kindNum target.descKind ∧
    eA (⟨name, some target⟩ : TransitionEntry) = target.descAttrs := by
  unfold eK eA entryKind entryAttrs targetKind targetAttrs
  simp [hns]

theorem entry_tup_special (name : Name) (t : Option Map)
    (hsp : IsSpecialTransition name = true) :
    eK (⟨name, t⟩ : TransitionEntry) = 0 ∧ eA (⟨name, t⟩ : TransitionEntry) = 0 := by
  unfold eK eA entryKind entryAttrs
  simp [hsp, kindNum]

/-- Case analysis of the search `Insert` performs on the freshly allocated
one-entry array of the SimpleTransition path: either the new edge's tuple
equals the old one's (the found case, whose absence the source asserts), or
the search misses and the insertion index orders the two entries. -/
theorem insertSearch_singleton_cases (simple target : Map) (name : Name)
    (flag : SimpleTransitionFlag) (hf : FlagMatches flag name) :
    ((insertSearch ⟨2, [⟨simple.descKey, some simple⟩], none⟩ name target flag).1 ≠ none →
      tupEqE ⟨name, some target⟩ ⟨simple.descKey, some simple⟩) ∧
    ((insertSearch ⟨2, [⟨simple.descKey, some simple⟩], none⟩ name target flag).1 = none →
      ((insertSearch ⟨2, [⟨simple.descKey, some simple⟩], none⟩ name target flag).2 = 0 →
        entryLt ⟨name, some target⟩ ⟨simple.descKey, some simple⟩) ∧
      ((insertSearch ⟨2, [⟨simple.descKey, some simple⟩], none⟩ name target flag).2 ≠ 0 →
        entryLt ⟨simple.descKey, some simple⟩ ⟨name, some target⟩)) := by
  have hone : ([⟨simple.descKey, some simple⟩] : List TransitionEntry).Pairwise entryLt := by
    simp
  by_cases hsp : flag = SimpleTransitionFlag.SPECIAL_TRANSITION
  · -- special flag: the search is the pure name search, details are defaulted
    have hname : IsSpecialTransition name = true := hf.mp hsp
    unfold insertSearch
    rw [if_pos hsp]
    simp only []
    constructor
    · intro hfound
      rcases hfd : (searchNameList name [⟨simple.descKey, some simple⟩]).1 with - | i
      · exact absurd hfd hfound
      · obtain ⟨e, he, hkey, -⟩ := searchNameList_found name _ i hfd
        match i, he with
        | 0, he =>
          simp only [List.getElem?_cons_zero, Option.some.injEq] at he
          subst he
          simp only [] at hkey
          unfold tupEqE
          obtain ⟨hk1, ha1⟩ := entry_tup_special name (some target) hname
          obtain ⟨hk2, ha2⟩ := entry_tup_special simple.descKey (some simple) (by rw [hkey]; exact hname)
          rw [eB_mk, eB_mk, eH_mk, eH_mk, hk1, ha1, hk2, ha2, hkey]
          exact ⟨rfl, rfl, rfl, rfl⟩
        | i + 1, he => simp at he
    · intro hmiss
      rcases hres : searchNameList name [⟨simple.descKey, some simple⟩] with ⟨f, i⟩
      have hf0 : f = none := by
        have := congrArg Prod.fst hres
        rw [hmiss] at this  -- hmm
        exact this.symm
      subst hf0
      obtain ⟨hle, htake, hdrop⟩ := searchName_none_split name _ hone i hres
      simp only []
      constructor
      · intro hi0
        subst hi0
        have hmem : (⟨simple.descKey, some simple⟩ : TransitionEntry) ∈
            ([⟨simple.descKey, some simple⟩] : List TransitionEntry).drop 0 := by simp
        have hfact := hdrop _ hmem (eK ⟨name, some target⟩) (eA ⟨name, some target⟩)
        rw [entryLt_iff, eB_mk, eH_mk]
        exact hfact
      · intro hi1
        have hmem : (⟨simple.descKey, some simple⟩ : TransitionEntry) ∈
            ([⟨simple.descKey, some simple⟩] : List TransitionEntry).take i := by
          rw [List.take_of_length_le (by simpa using Nat.one_le_iff_ne_zero.mpr hi1)]
          simp
        have hfact := htake _ hmem (eK ⟨name, some target⟩) (eA ⟨name, some target⟩)
        rw [entryLt_iff, eB_mk, eH_mk]
        exact hfact
  · -- regular flag: the composite search with the new target's details
    have hname : IsSpecialTransition name = false := by
      rcases h : IsSpecialTransition name with - | -
      · rfl
      · exact absurd (hf.mpr h) hsp
    unfold insertSearch
    rw [if_neg hsp]
    constructor
    · intro hfound
      rcases hfd : (listSearch target.descKind name target.descAttrs
          [⟨simple.descKey, some simple⟩]).1 with - | i
      · exact absurd hfd hfound
      · obtain ⟨e, he, hkey, hdet⟩ := listSearch_found target.descKind name target.descAttrs _ i hfd
        match i, he with
        | 0, he =>
          simp only [List.getElem?_cons_zero, Option.some.injEq] at he
          subst he
          simp only [] at hkey hdet
          obtain ⟨hkd, had⟩ := (CompareDetails_eq_iff _ _ _ _).mp hdet
          unfold tupEqE
          obtain ⟨hk1, ha1⟩ := entry_tup_regular name target hname
          have hns2 : IsSpecialTransition simple.descKey = false := by rw [hkey]; exact hname
          have hk2 : eK (⟨simple.descKey, some simple⟩ : TransitionEntry) =
              kindNum (targetKind ⟨simple.descKey, some simple⟩) := by
            unfold eK
            rw [entryKind_eq_targetKind hns2]
          have ha2 : eA (⟨simple.descKey, some simple⟩ : TransitionEntry) =
              targetAttrs ⟨simple.descKey, some simple⟩ := by
            unfold eA
            rw [entryAttrs_eq_targetAttrs hns2]
          rw [eB_mk, eB_mk, eH_mk, eH_mk, hk1, ha1, hk2, ha2, hkey]
          exact ⟨rfl, rfl, hkd, had⟩
        | i + 1, he => simp at he
    · intro hmiss
      rcases hres : listSearch target.descKind name target.descAttrs
          [⟨simple.descKey, some simple⟩] with ⟨f, i⟩
      have hf0 : f = none := by
        have := congrArg Prod.fst hres
        rw [hmiss] at this
        exact this.symm
      subst hf0
      obtain ⟨hle, htake, hdrop⟩ :=
        listSearch_none_split target.descKind name target.descAttrs hname _ hone i hres
      simp only []
      obtain ⟨hk1, ha1⟩ := entry_tup_regular name target hname
      constructor
      · intro hi0
        subst hi0
        have hmem : (⟨simple.descKey, some simple⟩ : TransitionEntry) ∈
            ([⟨simple.descKey, some simple⟩] : List TransitionEntry).drop 0 := by simp
        have hfact := hdrop _ hmem
        rw [entryLt_iff, eB_mk, eH_mk, hk1, ha1]
        exact hfact
      · intro hi1
        have hmem : (⟨simple.descKey, some simple⟩ : TransitionEntry) ∈
            ([⟨simple.descKey, some simple⟩] : List TransitionEntry).take i := by
          rw [List.take_of_length_le (by simpa using Nat.one_le_iff_ne_zero.mpr hi1)]
          simp
        have hfact := htake _ hmem
        rw [entryLt_iff, eB_mk, eH_mk, hk1, ha1]
        exact hfact

/-- Claim C4: on the SimpleTransition path with a non-matching new edge, the
state is reloaded after the 2-entry array allocation.  If the allocation
cleared the old weak simple target, Insert restarts via the Uninitialized
path: the result is a FullTransitionArray containing exactly the one new edge,
and the cleared target is never re-inserted.  If the old target survived, the
result contains exactly the old edge and the new edge in sorted order. -/
theorem C4_simple_to_full_reload (simple target : Map) (name : Name)
    (flag : SimpleTransitionFlag) (gc : GCOracle)
    (hf : FlagMatches flag name)
    (hne : ¬ tupEqE ⟨name, some target⟩ ⟨simple.descKey, some simple⟩) :
    (gc.clearSimple = true →
      TransitionsAccessor.Insert (.weakRef (some simple)) name target flag gc =
        some (.fullArray ⟨2, [⟨name, some target⟩], none⟩)) ∧
    (gc.clearSimple = false →
      ∃ l, TransitionsAccessor.Insert (.weakRef (some simple)) name target flag gc =
          some (.fullArray ⟨2, l, none⟩) ∧
        l.Perm [⟨simple.descKey, some simple⟩, ⟨name, some target⟩] ∧
        l.Pairwise entryLt) := by
  have hguard : ¬(flag = SimpleTransitionFlag.SIMPLE_PROPERTY_TRANSITION ∧
      simple.descKey = name ∧ simple.descKind = target.descKind ∧
      simple.descAttrs = target.descAttrs) := by
    rintro ⟨hfl, hk, hkd, hat⟩
    apply hne
    have hns : IsSpecialTransition name = false := by
      rcases hb : IsSpecialTransition name with - | -
      · rfl
      · exact absurd (hf.mpr hb) (by rw [hfl]; intro hcon; cases hcon)
    unfold tupEqE
    obtain ⟨hk1, ha1⟩ := entry_tup_regular name target hns
    have hns2 : IsSpecialTransition simple.descKey = false := by
      rw [hk]
      exact hns
    have hk2 : eK (⟨simple.descKey, some simple⟩ : TransitionEntry) =
        kindNum simple.descKind := by
      unfold eK
      rw [entryKind_eq_targetKind hns2]
      rfl
    have ha2 : eA (⟨simple.descKey, some simple⟩ : TransitionEntry) = simple.descAttrs := by
      unfold eA
      rw [entryAttrs_eq_targetAttrs hns2]
      rfl
    rw [eB_mk, eB_mk, eH_mk, eH_mk, hk1, ha1, hk2, ha2, hk, hkd, hat]
    exact ⟨rfl, rfl, rfl, rfl⟩
  unfold TransitionsAccessor.Insert
  simp only []
  rw [if_neg hguard]
  constructor
  · intro hclear
    rw [hclear, if_pos rfl]
  · intro hclear
    rw [hclear, if_neg (by simp)]
    obtain ⟨hfoundCase, hmissCase⟩ := insertSearch_singleton_cases simple target name flag hf
    rcases hs : insertSearch ⟨2, [⟨simple.descKey, some simple⟩], none⟩ name target flag
      with ⟨f, i⟩
    cases f with
    | some j =>
      refine absurd (hfoundCase ?_) hne
      rw [hs]
      simp
    | none =>
      rw [hs] at hfoundCase hmissCase
      obtain ⟨h0, h1⟩ := hmissCase rfl
      simp only [] at h0 h1 ⊢
      by_cases hi : i = 0
      · subst hi
        rw [if_pos rfl]
        refine ⟨[⟨name, some target⟩, ⟨simple.descKey, some simple⟩], rfl, ?_, ?_⟩
        · exact List.Perm.swap _ _ _
        · refine List.pairwise_cons.mpr ⟨?_, by simp⟩
          intro z hz
          simp only [List.mem_singleton] at hz
          subst hz
          exact h0 rfl
      · rw [if_neg hi]
        refine ⟨[⟨simple.descKey, some simple⟩, ⟨name, some target⟩], rfl, List.Perm.refl _, ?_⟩
        refine List.pairwise_cons.mpr ⟨?_, by simp⟩
        intro z hz
        simp only [List.mem_singleton] at hz
        subst hz
        exact h1 hi

/-- Witness for C4: inserting a second distinct simple edge while the
collector clears the old weak target yields a one-entry full array holding
only the new edge; with a quiescent collector the result holds both edges in
sorted order. -/
theorem C4_simple_to_full_reload_witness :
    TransitionsAccessor.Insert (.weakRef (some S1)) nameY S2 .SIMPLE_PROPERTY_TRANSITION
      ⟨true, none⟩ = some (.fullArray ⟨2, [⟨nameY, some S2⟩], none⟩) :=
  (C4_simple_to_full_reload S1 S2 nameY .SIMPLE_PROPERTY_TRANSITION ⟨true, none⟩
    (by decide) (by decide)).1 rfl

theorem entry_tup_special_key (e : TransitionEntry)
    (hsp : IsSpecialTransition e.key = true) : eK e = 0 ∧ eA e = 0 := by
  unfold eK eA entryKind entryAttrs
  simp [hsp, kindNum]

theorem insertSearch_ins_le (a : TransitionArray) (name : Name) (target : Map)
    (flag : SimpleTransitionFlag) :
    (insertSearch a name target flag).2 ≤ a.entries.length := by
  unfold insertSearch
  split_ifs
  · exact searchNameList_ins_le name a.entries
  · exact listSearch_ins_le target.descKind name target.descAttrs a.entries

/-- A found result of the Insert search names an existing entry whose
`(name, kind, attributes)` tuple equals the new edge's. -/
theorem insertSearch_found_char (a : TransitionArray) (name : Name) (target : Map)
    (flag : SimpleTransitionFlag) (hf : FlagMatches flag name) (idx : Nat)
    (h : (insertSearch a name target flag).1 = some idx) :
    ∃ e, a.entries[idx]? = some e ∧ e.key = name ∧
      tupEqE ⟨name, some target⟩ e := by
  by_cases hsp : flag = SimpleTransitionFlag.SPECIAL_TRANSITION
  · have hname : IsSpecialTransition name = true := hf.mp hsp
    unfold insertSearch at h
    rw [if_pos hsp] at h
    obtain ⟨e, he, hkey, -⟩ := searchNameList_found name a.entries idx h
    refine ⟨e, he, hkey, ?_⟩
    unfold tupEqE
    obtain ⟨hk1, ha1⟩ := entry_tup_special name (some target) hname
    obtain ⟨hk2, ha2⟩ := entry_tup_special_key e (by rw [hkey]; exact hname)
    rw [eB_mk, eH_mk, hk1, ha1, hk2, ha2]
    unfold eB eH
    rw [hkey]
    exact ⟨rfl, rfl, rfl, rfl⟩
  · have hname : IsSpecialTransition name = false := by
      rcases hb : IsSpecialTransition name with - | -
      · rfl
      · exact absurd (hf.mpr hb) hsp
    unfold insertSearch at h
    rw [if_neg hsp] at h
    obtain ⟨e, he, hkey, hdet⟩ :=
      listSearch_found target.descKind name target.descAttrs a.entries idx h
    refine ⟨e, he, hkey, ?_⟩
    obtain ⟨hkd, had⟩ := (CompareDetails_eq_iff _ _ _ _).mp hdet
    have hns2 : IsSpecialTransition e.key = false := by
      rw [hkey]
      exact hname
    unfold tupEqE
    obtain ⟨hk1, ha1⟩ := entry_tup_regular name target hname
    have hk2 : eK e = kindNum (targetKind e) := by
      unfold eK
      rw [entryKind_eq_targetKind hns2]
    have ha2 : eA e = targetAttrs e := by
      unfold eA
      rw [entryAttrs_eq_targetAttrs hns2]
    rw [eB_mk, eH_mk, hk1, ha1, hk2, ha2]
    unfold eB eH
    rw [hkey]
    exact ⟨rfl, rfl, hkd, had⟩

/-- A missed Insert search on a sorted array splits the entries strictly
around the new edge at the insertion index. -/
theorem insertSearch_none_split (a : TransitionArray) (name : Name) (target : Map)
    (flag : SimpleTransitionFlag) (hf : FlagMatches flag name)
    (hp : a.entries.Pairwise entryLt) (ins : Nat)
    (hres : insertSearch a name target flag = (none, ins)) :
    ins ≤ a.entries.length ∧
    (∀ e ∈ a.entries.take ins, entryLt e ⟨name, some target⟩) ∧
    (∀ e ∈ a.entries.drop ins, entryLt ⟨name, some target⟩ e) := by
  by_cases hsp : flag = SimpleTransitionFlag.SPECIAL_TRANSITION
  · have hname : IsSpecialTransition name = true := hf.mp hsp
    unfold insertSearch at hres
    rw [if_pos hsp] at hres
    obtain ⟨hle, htake, hdrop⟩ := searchName_none_split name a.entries hp ins hres
    obtain ⟨hk1, ha1⟩ := entry_tup_special name (some target) hname
    refine ⟨hle, ?_, ?_⟩
    · intro e he
      rw [entryLt_iff, eB_mk, eH_mk, hk1, ha1]
      exact htake e he 0 0
    · intro e he
      rw [entryLt_iff, eB_mk, eH_mk, hk1, ha1]
      exact hdrop e he 0 0
  · have hname : IsSpecialTransition name = false := by
      rcases hb : IsSpecialTransition name with - | -
      · rfl
      · exact absurd (hf.mpr hb) hsp
    unfold insertSearch at hres
    rw [if_neg hsp] at hres
    obtain ⟨hle, htake, hdrop⟩ :=
      listSearch_none_split target.descKind name target.descAttrs hname a.entries hp ins hres
    obtain ⟨hk1, ha1⟩ := entry_tup_regular name target hname
    refine ⟨hle, ?_, ?_⟩
    · intro e he
      rw [entryLt_iff, eB_mk, eH_mk, hk1, ha1]
      exact htake e he
    · intro e he
      rw [entryLt_iff, eB_mk, eH_mk, hk1, ha1]
      exact hdrop e he

theorem gcShrink_entries_sublist (gc : GCOracle) (a : TransitionArray) :
    (gcShrink gc a).entries.Sublist a.entries := by
  unfold gcShrink
  rcases hm : gc.shrinkMask with - | mask
  · exact List.Sublist.refl _
  · exact maskFilter_sublist mask a.entries

theorem length_insert_at (l : List TransitionEntry) (ins : Nat) (x : TransitionEntry) :
    (l.take ins ++ x :: l.drop ins).length = l.length + 1 := by
  simp only [List.length_append, List.length_take, List.length_cons, List.length_drop]
  omega

/-- Every successful Insert preserves the sorted-no-duplicates invariant, on
every path: overwrite, simple-to-full, in-place shift, copy-and-grow, and the
reload paths. -/
theorem insert_preserves_sorted (st : RawTransitions) (name : Name) (target : Map)
    (flag : SimpleTransitionFlag) (gc : GCOracle) (st' : RawTransitions)
    (hf : FlagMatches flag name) (hs : SortedInv st)
    (hins : TransitionsAccessor.Insert st name target flag gc = some st') :
    SortedInv st' := by
  cases st with
  | prototypeInfo => simp [TransitionsAccessor.Insert] at hins
  | uninitialized =>
    unfold TransitionsAccessor.Insert at hins
    simp only [] at hins
    split_ifs at hins
    · cases hins
      simp [SortedInv]
    · cases hins
      simp [SortedInv]
  | migrationTarget m =>
    unfold TransitionsAccessor.Insert at hins
    simp only [] at hins
    split_ifs at hins
    · cases hins
      simp [SortedInv]
    · cases hins
      simp [SortedInv]
  | weakRef tOpt =>
    cases tOpt with
    | none =>
      unfold TransitionsAccessor.Insert at hins
      simp only [] at hins
      split_ifs at hins
      · cases hins
        simp [SortedInv]
      · cases hins
        simp [SortedInv]
    | some simple =>
      unfold TransitionsAccessor.Insert at hins
      simp only [] at hins
      split_ifs at hins with hov hcl
      · cases hins
        simp [SortedInv]
      · cases hins
        simp [SortedInv]
      · obtain ⟨hfoundCase, hmissCase⟩ := insertSearch_singleton_cases simple target name flag hf
        rcases hs2 : insertSearch ⟨2, [⟨simple.descKey, some simple⟩], none⟩ name target flag
          with ⟨f, i⟩
        rw [hs2] at hins hfoundCase hmissCase
        cases f with
        | some j => simp at hins
        | none =>
          obtain ⟨h0, h1⟩ := hmissCase rfl
          simp only [] at hins h0 h1
          split_ifs at hins with hi
          · cases hins
            simp only [SortedInv]
            refine List.pairwise_cons.mpr ⟨?_, by simp⟩
            intro z hz
            simp only [List.mem_singleton] at hz
            subst hz
            exact h0 hi
          · cases hins
            simp only [SortedInv]
            refine List.pairwise_cons.mpr ⟨?_, by simp⟩
            intro z hz
            simp only [List.mem_singleton] at hz
            subst hz
            exact h1 hi
  | fullArray array =>
    simp only [SortedInv] at hs
    unfold TransitionsAccessor.Insert at hins
    simp only [] at hins
    rcases hsr : insertSearch array name target flag with ⟨f, ins⟩
    rw [hsr] at hins
    cases f with
    | some idx =>
      simp only [] at hins
      cases hins
      simp only [SortedInv]
      obtain ⟨e, hget, hkey, htup⟩ :=
        insertSearch_found_char array name target flag hf idx (by rw [hsr])
      have hset : setTargetAt array.entries idx (some target) =
          array.entries.set idx { e with target := some target } := by
        unfold setTargetAt
        rw [hget]
      rw [hset]
      refine pairwise_set_tupEq array.entries hs idx e _ hget ?_
      have hee : ({ e with target := some target } : TransitionEntry) =
          ⟨name, some target⟩ := by
        cases e
        simp only [] at hkey
        rw [hkey]
      rw [hee]
      exact htup
    | none =>
      simp only [] at hins
      obtain ⟨hle, htake, hdrop⟩ :=
        insertSearch_none_split array name target flag hf hs ins (by rw [hsr])
      split_ifs at hins with hcap hroom hsame
      · cases hins
        simp only [SortedInv]
        exact pairwise_insert_at array.entries hs _ ins htake hdrop
      · cases hins
        simp only [SortedInv]
        have heq : (gcShrink gc array).entries = array.entries :=
          (gcShrink_entries_sublist gc array).eq_of_length hsame
        rw [heq]
        exact pairwise_insert_at array.entries hs _ ins htake hdrop
      · have hp' : (gcShrink gc array).entries.Pairwise entryLt :=
          hs.sublist (gcShrink_entries_sublist gc array)
        rcases hsr2 : insertSearch (gcShrink gc array) name target flag with ⟨f2, i2⟩
        rw [hsr2] at hins
        cases f2 with
        | some j2 => exact Option.noConfusion hins
        | none =>
          simp only [] at hins
          cases hins
          simp only [SortedInv]
          obtain ⟨hle2, htake2, hdrop2⟩ :=
            insertSearch_none_split (gcShrink gc array) name target flag hf hp' i2
              (by rw [hsr2])
          exact pairwise_insert_at (gcShrink gc array).entries hp' _ i2 htake2 hdrop2


/-! ### Correctness of TransitionArray::Sort -/

theorem sortStepRev_perm (e : TransitionEntry) (l : List TransitionEntry) :
    (sortStepRev e l).Perm (e :: l) := by
  induction l with
  | nil => simp [sortStepRev]
  | cons x xs ih =>
    unfold sortStepRev
    split_ifs with h
    · exact (ih.cons x).trans (List.Perm.swap e x xs)
    · exact List.Perm.refl _

theorem mem_sortStepRev {y e : TransitionEntry} {l : List TransitionEntry}
    (hy : y ∈ sortStepRev e l) : y = e ∨ y ∈ l := by
  have := (sortStepRev_perm e l).mem_iff.mp hy
  simpa using this

theorem cmpE_antisymm_pos {x e : TransitionEntry} (h : 0 < cmpE x e) : entryLt e x := by
  unfold cmpE at h
  rw [entryLt_iff]
  unfold eB eH eK eA
  exact (CompareKeys_pos_iff x.key (entryKind x) (entryAttrs x)
    e.key (entryKind e) (entryAttrs e)).mp h

theorem tupEqE_symm {x y : TransitionEntry} (h : tupEqE x y) : tupEqE y x :=
  ⟨h.1.symm, h.2.1.symm, h.2.2.1.symm, h.2.2.2.symm⟩

theorem entryLe_trans {e1 e2 e3 : TransitionEntry} (h12 : entryLe e1 e2)
    (h23 : entryLe e2 e3) : entryLe e1 e3 := by
  rw [entryLe_iff] at h12 h23 ⊢
  rcases h12 with h12 | h12 <;> rcases h23 with h23 | h23
  · exact Or.inl (tupLt_trans h12 h23)
  · obtain ⟨hb, hh, hk, ha⟩ := h23
    rw [hb, hh, hk, ha] at h12
    exact Or.inl h12
  · obtain ⟨hb, hh, hk, ha⟩ := h12
    rw [← hb, ← hh, ← hk, ← ha] at h23
    exact Or.inl h23
  · obtain ⟨hb, hh, hk, ha⟩ := h12
    obtain ⟨hb2, hh2, hk2, ha2⟩ := h23
    exact Or.inr ⟨hb.trans hb2, hh.trans hh2, hk.trans hk2, ha.trans ha2⟩

theorem sortStepRev_revSorted (e : TransitionEntry) (l : List TransitionEntry)
    (hl : l.Pairwise (fun a b => entryLe b a)) :
    (sortStepRev e l).Pairwise (fun a b => entryLe b a) := by
  induction l with
  | nil => simp [sortStepRev]
  | cons x xs ih =>
    obtain ⟨hx, hxs⟩ := List.pairwise_cons.mp hl
    unfold sortStepRev
    split_ifs with h
    · refine List.pairwise_cons.mpr ⟨?_, ih hxs⟩
      intro z hz
      rcases mem_sortStepRev hz with rfl | hz2
      · have := cmpE_antisymm_pos h
        unfold entryLt at this
        unfold entryLe
        omega
      · exact hx z hz2
    · refine List.pairwise_cons.mpr ⟨?_, hl⟩
      intro z hz
      rcases List.mem_cons.mp hz with rfl | hz2
      · unfold entryLe
        omega
      · exact entryLe_trans (hx z hz2) (by unfold entryLe; omega)

theorem sortAux_perm (l : List TransitionEntry) :
    ∀ rd : List TransitionEntry, (sortAux rd l).Perm (rd.reverse ++ l) := by
  induction l with
  | nil => intro rd; simp [sortAux]
  | cons e rest ih =>
    intro rd
    unfold sortAux
    refine (ih (sortStepRev e rd)).trans ?_
    have h1 : (sortStepRev e rd).reverse.Perm (e :: rd) :=
      (List.reverse_perm _).trans (sortStepRev_perm e rd)
    refine (h1.append_right rest).trans ?_
    have h3 : ((e :: rd) ++ rest).Perm (rd ++ e :: rest) := by
      simpa using List.perm_middle.symm
    exact h3.trans ((List.reverse_perm rd).symm.append_right _)

theorem sortAux_sorted (l : List TransitionEntry) :
    ∀ rd : List TransitionEntry, rd.Pairwise (fun a b => entryLe b a) →
      (sortAux rd l).Pairwise entryLe := by
  induction l with
  | nil =>
    intro rd hrd
    unfold sortAux
    exact List.pairwise_reverse.mpr hrd
  | cons e rest ih =>
    intro rd hrd
    unfold sortAux
    exact ih _ (sortStepRev_revSorted e rd hrd)

theorem Sort_perm (a : TransitionArray) :
    (TransitionArray.Sort a).entries.Perm a.entries := by
  unfold TransitionArray.Sort
  simpa using sortAux_perm a.entries []

theorem Sort_sorted (a : TransitionArray) :
    (TransitionArray.Sort a).entries.Pairwise entryLe := by
  unfold TransitionArray.Sort
  exact sortAux_sorted a.entries [] (by simp)

theorem Sort_strict (a : TransitionArray)
    (hnd : a.entries.Pairwise (fun e1 e2 => ¬ tupEqE e1 e2)) :
    (TransitionArray.Sort a).entries.Pairwise entryLt := by
  have hsym : ∀ {x y : TransitionEntry}, ¬ tupEqE x y → ¬ tupEqE y x :=
    fun h hc => h (tupEqE_symm hc)
  have hnd2 : (TransitionArray.Sort a).entries.Pairwise (fun e1 e2 => ¬ tupEqE e1 e2) :=
    ((Sort_perm a).pairwise_iff hsym).mpr hnd
  exact List.Pairwise.imp (fun h => entryLt_of_le_of_ne _ _ h.1 h.2)
    ((Sort_sorted a).and hnd2)

/-- Claim C2: whenever a shape's storage is a FullTransitionArray it is
strictly sorted by the composite comparator with no duplicate
`(name, kind, attributes)` tuples; every Insert path preserves this invariant
(first conjunct), `Sort` re-establishes the order after bulk construction
(second conjunct), strictly so when the bulk entries have pairwise distinct
tuples (third conjunct), and the strict order entails the absence of duplicate
tuples (fourth conjunct). -/
theorem C2_full_array_sorted_no_duplicates :
    (∀ (st : RawTransitions) (name : Name) (target : Map) (flag : SimpleTransitionFlag)
        (gc : GCOracle) (st2 : RawTransitions), FlagMatches flag name →
      SortedInv st → TransitionsAccessor.Insert st name target flag gc = some st2 →
      SortedInv st2) ∧
    (∀ a : TransitionArray, (TransitionArray.Sort a).entries.Pairwise entryLe) ∧
    (∀ a : TransitionArray, a.entries.Pairwise (fun e1 e2 => ¬ tupEqE e1 e2) →
      (TransitionArray.Sort a).entries.Pairwise entryLt) ∧
    (∀ l : List TransitionEntry, l.Pairwise entryLt →
      l.Pairwise (fun e1 e2 => ¬ tupEqE e1 e2)) :=
  ⟨fun st name target flag gc st2 hf hs hins =>
      insert_preserves_sorted st name target flag gc st2 hf hs hins,
   Sort_sorted,
   Sort_strict,
   fun _ hl => List.Pairwise.imp (fun h => entryLt_ne_tup h) hl⟩

/-- Witness for C2: the scenario's second Insert yields a sorted
FullTransitionArray. -/
theorem C2_full_array_sorted_no_duplicates_witness : SortedInv stFullXY :=
  C2_full_array_sorted_no_duplicates.1 stSimpleX nameY S2 .SIMPLE_PROPERTY_TRANSITION noGC
    stFullXY (by decide) (by simp [stSimpleX, SortedInv]) (by decide)


/-! ### C3: capacity growth and the hard cap -/

theorem insert_preserves_cap (st : RawTransitions) (name : Name) (target : Map)
    (flag : SimpleTransitionFlag) (gc : GCOracle) (st' : RawTransitions)
    (hc : CapInv st)
    (hins : TransitionsAccessor.Insert st name target flag gc = some st') :
    CapInv st' := by
  cases st with
  | prototypeInfo => simp [TransitionsAccessor.Insert] at hins
  | uninitialized =>
    unfold TransitionsAccessor.Insert at hins
    simp only [] at hins
    split_ifs at hins
    · cases hins
      simp [CapInv]
    · cases hins
      simp only [CapInv, List.length_cons, List.length_nil]
      unfold kMaxNumberOfTransitions
      omega
  | migrationTarget m =>
    unfold TransitionsAccessor.Insert at hins
    simp only [] at hins
    split_ifs at hins
    · cases hins
      simp [CapInv]
    · cases hins
      simp only [CapInv, List.length_cons, List.length_nil]
      unfold kMaxNumberOfTransitions
      omega
  | weakRef tOpt =>
    cases tOpt with
    | none =>
      unfold TransitionsAccessor.Insert at hins
      simp only [] at hins
      split_ifs at hins
      · cases hins
        simp [CapInv]
      · cases hins
        simp only [CapInv, List.length_cons, List.length_nil]
        unfold kMaxNumberOfTransitions
        omega
    | some simple =>
      unfold TransitionsAccessor.Insert at hins
      simp only [] at hins
      split_ifs at hins with hov hcl
      · cases hins
        simp [CapInv]
      · cases hins
        simp only [CapInv, List.length_cons, List.length_nil]
        unfold kMaxNumberOfTransitions
        omega
      · rcases hs2 : insertSearch ⟨2, [⟨simple.descKey, some simple⟩], none⟩ name target flag
          with ⟨f, i⟩
        rw [hs2] at hins
        cases f with
        | some j => simp at hins
        | none =>
          simp only [] at hins
          split_ifs at hins
          · cases hins
            simp only [CapInv, List.length_cons, List.length_nil]
            unfold kMaxNumberOfTransitions
            omega
          · cases hins
            simp only [CapInv, List.length_cons, List.length_nil]
            unfold kMaxNumberOfTransitions
            omega
  | fullArray array =>
    simp only [CapInv] at hc
    unfold TransitionsAccessor.Insert at hins
    simp only [] at hins
    rcases hsr : insertSearch array name target flag with ⟨f, ins⟩
    rw [hsr] at hins
    cases f with
    | some idx =>
      simp only [] at hins
      cases hins
      simp only [CapInv]
      refine ⟨?_, hc.2⟩
      unfold setTargetAt
      rcases hg : array.entries[idx]? with - | e
      · exact hc.1
      · rw [List.length_set]
        exact hc.1
    | none =>
      simp only [] at hins
      split_ifs at hins with hcap hroom hsame
      · cases hins
        simp only [CapInv]
        rw [length_insert_at]
        exact ⟨hroom, hc.2⟩
      · cases hins
        simp only [CapInv]
        rw [length_insert_at, hsame]
        simp only [SlackForArraySize, kMaxNumberOfTransitions] at hcap ⊢
        omega
      · rcases hsr2 : insertSearch (gcShrink gc array) name target flag with ⟨f2, i2⟩
        rw [hsr2] at hins
        cases f2 with
        | some j2 => exact Option.noConfusion hins
        | none =>
          simp only [] at hins
          cases hins
          simp only [CapInv]
          rw [length_insert_at]
          have hlen : (gcShrink gc array).entries.length ≤ array.entries.length :=
            (gcShrink_entries_sublist gc array).length_le
          simp only [SlackForArraySize, kMaxNumberOfTransitions] at hcap ⊢
          omega

theorem insert_growth_law (array : TransitionArray) (name : Name) (target : Map)
    (flag : SimpleTransitionFlag) (gc : GCOracle) (st' : RawTransitions)
    (hfull : array.entries.length = array.capacity)
    (hmiss : (insertSearch array name target flag).1 = none)
    (hins : TransitionsAccessor.Insert (.fullArray array) name target flag gc = some st') :
    ∃ a2 : TransitionArray, st' = .fullArray a2 ∧
      array.capacity < a2.capacity ∧ a2.capacity ≤ kMaxNumberOfTransitions := by
  unfold TransitionsAccessor.Insert at hins
  simp only [] at hins
  rcases hsr : insertSearch array name target flag with ⟨f, ins⟩
  rw [hsr] at hins
  rw [hsr] at hmiss
  cases f with
  | some idx => simp at hmiss
  | none =>
    simp only [] at hins
    split_ifs at hins with hcap hroom hsame
    · omega
    · cases hins
      refine ⟨_, rfl, ?_⟩
      simp only []
      simp only [SlackForArraySize, kMaxNumberOfTransitions] at hcap ⊢
      omega
    · rcases hsr2 : insertSearch (gcShrink gc array) name target flag with ⟨f2, i2⟩
      rw [hsr2] at hins
      cases f2 with
      | some j2 => exact Option.noConfusion hins
      | none =>
        simp only [] at hins
        cases hins
        refine ⟨_, rfl, ?_⟩
        simp only []
        simp only [SlackForArraySize, kMaxNumberOfTransitions] at hcap ⊢
        omega

theorem insert_no_fatal (array : TransitionArray) (name : Name) (target : Map)
    (flag : SimpleTransitionFlag) (gc : GCOracle)
    (hf : FlagMatches flag name) (hp : array.entries.Pairwise entryLt)
    (hlt : array.entries.length < kMaxNumberOfTransitions) :
    TransitionsAccessor.Insert (.fullArray array) name target flag gc ≠ none := by
  unfold TransitionsAccessor.Insert
  simp only []
  rcases hsr : insertSearch array name target flag with ⟨f, ins⟩
  cases f with
  | some idx => simp
  | none =>
    simp only []
    split_ifs with hcap hroom hsame
    · omega
    · simp
    · simp
    · rcases hsr2 : insertSearch (gcShrink gc array) name target flag with ⟨f2, i2⟩
      cases f2 with
      | none => simp
      | some j2 =>
        exfalso
        obtain ⟨e, hget, hkey, htup⟩ :=
          insertSearch_found_char (gcShrink gc array) name target flag hf j2 (by rw [hsr2])
        have hmem : e ∈ (gcShrink gc array).entries := List.getElem?_mem hget
        have hmem2 : e ∈ array.entries :=
          (gcShrink_entries_sublist gc array).subset hmem
        obtain ⟨hle, htake, hdrop⟩ :=
          insertSearch_none_split array name target flag hf hp ins (by rw [hsr])
        have hsplit : e ∈ array.entries.take ins ++ array.entries.drop ins := by
          rw [List.take_append_drop]
          exact hmem2
        rcases List.mem_append.mp hsplit with hm | hm
        · exact entryLt_ne_tup (htake e hm) (tupEqE_symm htup)
        · exact entryLt_ne_tup (hdrop e hm) htup

/-- Claim C3: inserting a missing edge into a FullTransitionArray whose count
equals its capacity always produces a replacement array with strictly larger
capacity that stays at most `kMaxNumberOfTransitions` (first conjunct); every
Insert preserves `count ≤ capacity ≤ kMaxNumberOfTransitions` (second
conjunct); and when the pre-insert count is below `kMaxNumberOfTransitions`
and the array is well-formed, the fatal `CHECK_LE(new_nof,
kMaxNumberOfTransitions)` branch — and every other fatal branch of the
full-array path — is unreachable (third conjunct). -/
theorem C3_capacity_growth :
    (∀ (array : TransitionArray) (name : Name) (target : Map)
        (flag : SimpleTransitionFlag) (gc : GCOracle) (st' : RawTransitions),
      array.entries.length = array.capacity →
      (insertSearch array name target flag).1 = none →
      TransitionsAccessor.Insert (.fullArray array) name target flag gc = some st' →
      ∃ a2 : TransitionArray, st' = .fullArray a2 ∧
        array.capacity < a2.capacity ∧ a2.capacity ≤ kMaxNumberOfTransitions) ∧
    (∀ (st : RawTransitions) (name : Name) (target : Map)
        (flag : SimpleTransitionFlag) (gc : GCOracle) (st' : RawTransitions),
      CapInv st → TransitionsAccessor.Insert st name target flag gc = some st' →
      CapInv st') ∧
    (∀ (array : TransitionArray) (name : Name) (target : Map)
        (flag : SimpleTransitionFlag) (gc : GCOracle),
      FlagMatches flag name → array.entries.Pairwise entryLt →
      array.entries.length < kMaxNumberOfTransitions →
      TransitionsAccessor.Insert (.fullArray array) name target flag gc ≠ none) :=
  ⟨insert_growth_law,
   fun st name target flag gc st' hc hins =>
     insert_preserves_cap st name target flag gc st' hc hins,
   insert_no_fatal⟩

/-- Witness for C3: inserting a third edge "z" into the at-capacity two-entry
array of the scenario grows the capacity from 2 to 4, within the hard cap. -/
theorem C3_capacity_growth_witness :
    ∃ a2 : TransitionArray,
      (RawTransitions.fullArray
        ⟨4, [⟨nameX, some S1⟩, ⟨nameY, some S2⟩, ⟨nameZ, some S3⟩], none⟩ : RawTransitions) =
        .fullArray a2 ∧
      (⟨2, [⟨nameX, some S1⟩, ⟨nameY, some S2⟩], none⟩ : TransitionArray).capacity <
        a2.capacity ∧
      a2.capacity ≤ kMaxNumberOfTransitions :=
  C3_capacity_growth.1 ⟨2, [⟨nameX, some S1⟩, ⟨nameY, some S2⟩], none⟩ nameZ S3
    .PROPERTY_TRANSITION noGC
    (.fullArray ⟨4, [⟨nameX, some S1⟩, ⟨nameY, some S2⟩, ⟨nameZ, some S3⟩], none⟩)
    (by decide) (by decide) (by decide)

/-- Witness for C8 at the concrete three-special-transition storage
`stInteg`. -/
theorem C8_integrity_level_priority_witness :
    TransitionsAccessor.HasIntegrityLevelTransitionTo stInteg T1 = some (.frozen, attrFROZEN) ∧
    TransitionsAccessor.HasIntegrityLevelTransitionTo stInteg T2 = some (.sealed, attrSEALED) ∧
    TransitionsAccessor.HasIntegrityLevelTransitionTo stInteg T3 = some (.nonextensible, attrNONE) ∧
    TransitionsAccessor.HasIntegrityLevelTransitionTo stInteg S1 = none :=
  C8_integrity_level_priority stInteg T1 T2 T3 S1 (by decide) (by decide) (by decide)
    (by decide) (by decide) (by decide) (by decide) (by decide) (by decide)


/-! ### C6: prototype-cache compaction -/

theorem ensure_fullArray (st : RawTransitions) :
    ∃ a, TransitionsAccessor.EnsureHasFullTransitionArray st = .fullArray a := by
  cases st with
  | fullArray a => exact ⟨a, rfl⟩
  | uninitialized => exact ⟨_, rfl⟩
  | migrationTarget m => exact ⟨_, rfl⟩
  | prototypeInfo => exact ⟨_, rfl⟩
  | weakRef o =>
    cases o with
    | none => exact ⟨_, rfl⟩
    | some m => exact ⟨_, rfl⟩

theorem getProtoCache_some {st : RawTransitions} {c : ProtoCache}
    (h : getProtoCache st = some c) :
    ∃ a, st = .fullArray a ∧ a.prototypeTransitions = some c := by
  cases st with
  | fullArray a => exact ⟨a, rfl, h⟩
  | uninitialized => simp [getProtoCache] at h
  | weakRef o => simp [getProtoCache] at h
  | migrationTarget m => simp [getProtoCache] at h
  | prototypeInfo => simp [getProtoCache] at h

theorem protoCapBound_append (st : RawTransitions) (t : Map) (hb : ProtoCapBound st) :
    ProtoCapBound (protoAppend st t) := by
  cases st with
  | fullArray a =>
    rcases hpt : a.prototypeTransitions with - | c
    · unfold protoAppend
      simp only [hpt]
      exact hb
    · unfold protoAppend
      simp only [hpt]
      simp only [ProtoCapBound, getProtoCache, hpt] at hb
      simp only [ProtoCapBound, getProtoCache]
      exact hb
  | uninitialized => exact hb
  | weakRef o => exact hb
  | migrationTarget m => exact hb
  | prototypeInfo => exact hb

theorem protoCapBound_setProto_append (st : RawTransitions) (pc : ProtoCache) (t : Map)
    (hcap : pc.capacity ≤ kMaxCachedPrototypeTransitions) :
    ProtoCapBound (protoAppend (TransitionsAccessor.SetPrototypeTransitions st pc) t) := by
  obtain ⟨a2, hE⟩ := ensure_fullArray st
  unfold TransitionsAccessor.SetPrototypeTransitions
  rw [hE]
  unfold protoAppend
  simp only []
  simp only [ProtoCapBound, getProtoCache]
  exact hcap

theorem put_preserves_protoCap (p d : Bool) (st : RawTransitions) (t : Map)
    (hb : ProtoCapBound st) :
    ProtoCapBound (TransitionsAccessor.PutPrototypeTransition p d st t) := by
  unfold TransitionsAccessor.PutPrototypeTransition
  cases p with
  | true => simpa using hb
  | false =>
    cases d with
    | true => simpa using hb
    | false =>
      rw [if_neg (by simp), if_neg (by simp [FLAG_cache_prototype_transitions])]
      rcases hc : getProtoCache st with - | c
      · simp only [hc, protoCapacityInt, protoCount]
        rw [if_pos (by decide)]
        refine protoCapBound_setProto_append st _ t ?_
        unfold TransitionArray.GrowPrototypeTransitionArray
        simp only []
        exact Nat.min_le_left _ _
      · simp only [hc, protoCapacityInt, protoCount]
        split_ifs with hlt hfreed hmax
        · obtain ⟨a, rfl, hpt⟩ := getProtoCache_some hc
          refine protoCapBound_append _ t ?_
          unfold setProtoCache
          simp only [ProtoCapBound, getProtoCache]
          simp only [ProtoCapBound, getProtoCache, hpt] at hb
          unfold TransitionArray.CompactPrototypeTransitionArray
          split_ifs
          · exact hb
          · simp only []
            exact hb
        · exact hb
        · refine protoCapBound_setProto_append st _ t ?_
          unfold TransitionArray.GrowPrototypeTransitionArray
          simp only []
          exact Nat.min_le_left _ _
        · exact protoCapBound_append st t hb

theorem filterMap_id_map_some {α : Type} (l : List (Option α)) :
    (l.filterMap id).map some = l.filter Option.isSome := by
  induction l with
  | nil => rfl
  | cons x xs ih =>
    cases x with
    | none => simpa [List.filterMap_cons, List.filter_cons, Option.isSome] using ih
    | some v => simp [List.filterMap_cons, List.filter_cons, Option.isSome, ih]

theorem put_compacts (a : TransitionArray) (c : ProtoCache) (target : Map)
    (hpt : a.prototypeTransitions = some c)
    (hcount : c.count = c.capacity)
    (hclr : none ∈ c.slots.take c.count) :
    TransitionsAccessor.PutPrototypeTransition false false (.fullArray a) target =
      .fullArray
        { a with
          prototypeTransitions := some
            ⟨c.capacity,
             ((c.slots.take c.count).filterMap id).length + 1,
             ((c.slots.take c.count).filterMap id).map some ++ some target ::
               (List.replicate (c.count - ((c.slots.take c.count).filterMap id).length - 1)
                 none ++ c.slots.drop c.count)⟩ } := by
  have hne : c.count ≠ 0 := by
    intro h0
    rw [h0, List.take_zero] at hclr
    cases hclr
  have hnn : ((c.slots.take c.count).filterMap id).length < c.count := by
    have h1 := filterMap_id_length_lt _ hclr
    have h2 : (c.slots.take c.count).length ≤ c.count := by
      rw [List.length_take]
      omega
    omega
  unfold TransitionsAccessor.PutPrototypeTransition
  simp only [FLAG_cache_prototype_transitions, Bool.false_eq_true, if_false, not_true,
    or_false, getProtoCache, hpt, protoCapacityInt, protoCount]
  rw [if_pos (by push_cast; omega)]
  unfold TransitionArray.CompactPrototypeTransitionArray
  rw [if_neg hne]
  have hfreed : decide (((c.slots.take c.count).filterMap id).length < c.count) = true := by
    simp [hnn]
  simp only [hfreed, if_true]
  unfold setProtoCache protoAppend
  simp only []
  have hR : List.replicate (c.count - ((c.slots.take c.count).filterMap id).length)
      (none : Option Map) =
      none :: List.replicate
        (c.count - ((c.slots.take c.count).filterMap id).length - 1) none := by
    rcases hk : c.count - ((c.slots.take c.count).filterMap id).length with - | k
    · omega
    · rw [List.replicate_succ]
      simp
  have key := set_append_cons (((c.slots.take c.count).filterMap id).map some)
    (none : Option Map) (some target)
    (List.replicate (c.count - ((c.slots.take c.count).filterMap id).length - 1) none ++
      c.slots.drop c.count)
  rw [List.length_map] at key
  rw [List.append_assoc, hR, List.cons_append, key]


/-- Claim C6: when `PutPrototypeTransition` finds the prototype cache's live
count at capacity and some live slot has been cleared, compaction drops
exactly the cleared slots, shifts the survivors to the front in their
original relative order, sets the live count to the number of survivors, and
writes the new entry immediately after the compacted live run, bumping the
count (first conjunct), having freed at least one slot (its second part); the
survivor run is exactly the original live run with the cleared slots filtered
out (second conjunct); and the cache capacity never exceeds
`kMaxCachedPrototypeTransitions` on any `PutPrototypeTransition` path (third
conjunct). -/
theorem C6_put_compaction :
    (∀ (a : TransitionArray) (c : ProtoCache) (target : Map),
      a.prototypeTransitions = some c →
      c.count = c.capacity →
      none ∈ c.slots.take c.count →
      TransitionsAccessor.PutPrototypeTransition false false (.fullArray a) target =
        .fullArray
          { a with
            prototypeTransitions := some
              ⟨c.capacity,
               ((c.slots.take c.count).filterMap id).length + 1,
               ((c.slots.take c.count).filterMap id).map some ++ some target ::
                 (List.replicate
                    (c.count - ((c.slots.take c.count).filterMap id).length - 1) none ++
                  c.slots.drop c.count)⟩ } ∧
      ((c.slots.take c.count).filterMap id).length < c.count) ∧
    (∀ l : List (Option Map), (l.filterMap id).map some = l.filter Option.isSome) ∧
    (∀ (p d : Bool) (st : RawTransitions) (t : Map),
      ProtoCapBound st → ProtoCapBound (TransitionsAccessor.PutPrototypeTransition p d st t)) :=
  ⟨fun a c target hpt hcount hclr =>
    ⟨put_compacts a c target hpt hcount hclr, by
      have h1 := filterMap_id_length_lt _ hclr
      have h2 : (c.slots.take c.count).length ≤ c.count := by
        rw [List.length_take]
        omega
      omega⟩,
   fun l => filterMap_id_map_some l,
   put_preserves_protoCap⟩

/-- Witness for C6 at the concrete full cache `protoCacheHalf` whose second
slot was cleared: the cleared slot is dropped, the survivor stays first, and
the new entry lands right after it. -/
theorem C6_put_compaction_witness :
    (TransitionsAccessor.PutPrototypeTransition false false stProtoHalf S2 =
      .fullArray
        { capacity := 1,
          entries := [{ key := nameX, target := some S1 }],
          prototypeTransitions := some
            ⟨protoCacheHalf.capacity,
             ((protoCacheHalf.slots.take protoCacheHalf.count).filterMap id).length + 1,
             ((protoCacheHalf.slots.take protoCacheHalf.count).filterMap id).map some ++
               some S2 ::
               (List.replicate
                  (protoCacheHalf.count -
                   ((protoCacheHalf.slots.take protoCacheHalf.count).filterMap id).length - 1)
                  none ++
                protoCacheHalf.slots.drop protoCacheHalf.count)⟩ }) ∧
    ((protoCacheHalf.slots.take protoCacheHalf.count).filterMap id).length <
      protoCacheHalf.count :=
  C6_put_compaction.1 ⟨1, [⟨nameX, some S1⟩], some protoCacheHalf⟩ protoCacheHalf S2 rfl rfl
    (by decide)

end V8
